import Mathlib

/-!
Verification of the beam node chain processor (`src/beam/node_processor.h`)
against its natural-language specification.

The repository ships only the class declaration `NodeProcessor` in
`src/beam/node_processor.h`; the member-function bodies are not part of the
source tree.  Consequently the operational definitions below are modelled
from the specification's own description of each operation (see the
`Modelled from the spec:` doc comments), and settled against that model.

Modelling conventions:
* heights, hashes, commitments, kernel excesses and cumulative work are `Nat`;
* a UTXO key (commitment plus maturity) is a single `Nat` code;
* the two commitment trees are `Multiset Nat` (the UTXO tree keeps
  multiplicities, the kernel tree is kept duplicate-free by its `add`);
* a Merkle root is an injective function of the sorted tree contents,
  encoded as a single `Nat`;
* cryptography (PoW, range proofs, signatures) is abstracted away: a header
  is structurally valid iff its height is at least 1.
-/

namespace beam

/-- Injective encoding of a list of naturals into one natural, used as the
digest of tree contents: a Merkle root is modelled as an injective function
of the sorted contents of the tree. -/
def encodeL : List Nat → Nat
  | [] => 0
  | a :: l => Nat.pair a (encodeL l) + 1

/-- Decoder, inverse of `encodeL`. -/
def decodeL : Nat → List Nat
  | 0 => []
  | n + 1 => (Nat.unpair n).1 :: decodeL (Nat.unpair n).2
decreasing_by exact Nat.lt_succ_of_le (Nat.unpair_right_le n)

theorem decodeL_encodeL (l : List Nat) : decodeL (encodeL l) = l := by
  induction l with
  | nil => simp [encodeL, decodeL]
  | cons a l ih => simp [encodeL, decodeL, Nat.unpair_pair, ih]

theorem encodeL_injective : Function.Injective encodeL := by
  intro x y h
  have := congrArg decodeL h
  simpa [decodeL_encodeL] using this

theorem insertionSort_eq_of_perm {l₁ l₂ : List Nat} (h : l₁.Perm l₂) :
    List.insertionSort (· ≤ ·) l₁ = List.insertionSort (· ≤ ·) l₂ :=
  List.eq_of_perm_of_sorted
    ((List.perm_insertionSort _ l₁).trans
      (h.trans (List.perm_insertionSort _ l₂).symm))
    (List.sorted_insertionSort _ l₁) (List.sorted_insertionSort _ l₂)

/-- The contents of a tree as a sorted list. -/
def sortedList (t : Multiset Nat) : List Nat :=
  Quot.liftOn t (List.insertionSort (· ≤ ·))
    (fun _ _ h => insertionSort_eq_of_perm h)

theorem sortedList_coe (t : Multiset Nat) : (sortedList t : Multiset Nat) = t := by
  induction t using Quot.inductionOn with
  | h l => exact Quot.sound (List.perm_insertionSort _ l)

/-- The root of a commitment tree: the injective digest of its sorted
contents.  Insertion order into the tree is irrelevant to the root. -/
def treeRoot (t : Multiset Nat) : Nat :=
  encodeL (sortedList t)

/-- Decode a root back into the tree contents (tree contents are determined
by the root). -/
def decodeT (n : Nat) : Multiset Nat :=
  (decodeL n : List Nat)

theorem decodeT_treeRoot (t : Multiset Nat) : decodeT (treeRoot t) = t := by
  simp [decodeT, treeRoot, decodeL_encodeL, sortedList_coe]

theorem treeRoot_injective : Function.Injective treeRoot := by
  intro x y h
  have := congrArg decodeT h
  simpa [decodeT_treeRoot] using this

/-- Modelled from the spec: `UtxoTree.add` — increments the multiplicity of a
key, inserting a leaf if absent. -/
def utxoAdd (t : Multiset Nat) (k : Nat) : Multiset Nat := k ::ₘ t

/-- Modelled from the spec: `UtxoTree.remove` — decrements the multiplicity;
fails if the key is absent. -/
def utxoRemove (t : Multiset Nat) (k : Nat) : Option (Multiset Nat) :=
  if k ∈ t then some (t.erase k) else none

/-- Modelled from the spec: `KernelTree.add` — adding an already-present
kernel is a validation error. -/
def kernelAdd (t : Multiset Nat) (k : Nat) : Option (Multiset Nat) :=
  if k ∈ t then none else some (k ::ₘ t)

/-- A block body (`NodeDB::Blob` payload after parsing): inputs (each a UTXO
key being spent), outputs (each a UTXO key being created) and kernels (each
a kernel-excess hash).  Modelled from the spec's data model for block
bodies. -/
structure Body where
  m_vInputs : List Nat
  m_vOutputs : List Nat
  m_vKernels : List Nat
deriving DecidableEq, Repr

/-- The pair of commitment trees the processor maintains
(`m_Utxos`, `m_Kernels`). -/
structure Trees where
  m_Utxos : Multiset Nat
  m_Kernels : Multiset Nat
deriving DecidableEq

/-- The empty trees of a freshly initialized processor. -/
def Trees.empty : Trees := ⟨0, 0⟩

/-- Remove a list of UTXO keys one by one; fails if any key is absent at its
turn.  This is the input-consuming half of `HandleValidatedTx` going
forward. -/
def removeList (t : Multiset Nat) : List Nat → Option (Multiset Nat)
  | [] => some t
  | k :: l =>
    match utxoRemove t k with
    | none => none
    | some t' => removeList t' l

/-- Add a list of UTXO keys (output creation). -/
def addList (t : Multiset Nat) (l : List Nat) : Multiset Nat :=
  l.foldl utxoAdd t

/-- Add a list of kernels, failing on any duplicate. -/
def kernelAddList (t : Multiset Nat) : List Nat → Option (Multiset Nat)
  | [] => some t
  | k :: l =>
    match kernelAdd t k with
    | none => none
    | some t' => kernelAddList t' l

/-- Erase a list of keys (total; used only when rolling back, where the spec
stipulates removal must succeed). -/
def eraseList (t : Multiset Nat) (l : List Nat) : Multiset Nat :=
  l.foldl Multiset.erase t

/-- Modelled from the spec: `HandleValidatedTx` forward — consume the inputs,
create the outputs, add the kernels; any failure aborts. -/
def applyFwd (t : Trees) (b : Body) : Option Trees :=
  match removeList t.m_Utxos b.m_vInputs with
  | none => none
  | some u =>
    match kernelAddList t.m_Kernels b.m_vKernels with
    | none => none
    | some k => some ⟨addList u b.m_vOutputs, k⟩

/-- Modelled from the spec: `HandleValidatedTx` backward — undo a previous
forward application using the stored rollback data (the body itself in this
model): remove the outputs, re-create the inputs, remove the kernels. -/
def applyBwd (t : Trees) (b : Body) : Trees :=
  ⟨addList (eraseList t.m_Utxos b.m_vOutputs) b.m_vInputs,
   eraseList t.m_Kernels b.m_vKernels⟩

theorem removeList_spec {t u : Multiset Nat} {l : List Nat}
    (h : removeList t l = some u) : (l : Multiset Nat) ≤ t ∧ u = t - l := by
  induction l generalizing t with
  | nil =>
    simp [removeList] at h
    simp [h]
  | cons k l ih =>
    by_cases hk : k ∈ t
    · simp only [removeList, utxoRemove, if_pos hk] at h
      obtain ⟨hle, hu⟩ := ih h
      refine ⟨?_, ?_⟩
      · rw [← Multiset.cons_coe]
        calc (k ::ₘ (l : Multiset Nat)) ≤ k ::ₘ t.erase k :=
              Multiset.cons_le_cons k hle
          _ = t := Multiset.cons_erase hk
      · rw [hu, ← Multiset.cons_coe, Multiset.sub_cons]
    · simp [removeList, utxoRemove, hk] at h

theorem removeList_of_le {t : Multiset Nat} {l : List Nat}
    (h : (l : Multiset Nat) ≤ t) : removeList t l = some (t - l) := by
  induction l generalizing t with
  | nil => simp [removeList]
  | cons k l ih =>
    have hk : k ∈ t := by
      rw [← Multiset.cons_coe] at h
      exact Multiset.mem_of_le h (Multiset.mem_cons_self k _)
    have hle : (l : Multiset Nat) ≤ t.erase k := by
      rw [← Multiset.cons_le_cons_iff k, Multiset.cons_erase hk]
      rwa [← Multiset.cons_coe] at h
    simp only [removeList, utxoRemove, if_pos hk, ih hle, ← Multiset.cons_coe,
      Multiset.sub_cons]

theorem addList_eq (t : Multiset Nat) (l : List Nat) :
    addList t l = t + l := by
  induction l generalizing t with
  | nil => simp [addList]
  | cons k l ih =>
    simp only [addList, List.foldl_cons] at *
    rw [ih (utxoAdd t k)]
    simp [utxoAdd, ← Multiset.cons_coe]

theorem eraseList_eq (t : Multiset Nat) (l : List Nat) :
    eraseList t l = t - l := by
  induction l generalizing t with
  | nil => simp [eraseList]
  | cons k l ih =>
    simp only [eraseList, List.foldl_cons] at *
    rw [ih (t.erase k), ← Multiset.cons_coe, Multiset.sub_cons]

theorem kernelAddList_spec {t u : Multiset Nat} {l : List Nat}
    (h : kernelAddList t l = some u) : u = t + l := by
  induction l generalizing t with
  | nil =>
    simp [kernelAddList] at h
    simp [h]
  | cons k l ih =>
    by_cases hk : k ∈ t
    · simp [kernelAddList, kernelAdd, hk] at h
    · simp only [kernelAddList, kernelAdd, if_neg hk] at h
      rw [ih h, ← Multiset.cons_coe, Multiset.add_cons, Multiset.cons_add]

/-- Round trip of the trees: a successful forward application followed by the
backward application restores the trees exactly. -/
theorem applyBwd_applyFwd {t t' : Trees} {b : Body}
    (h : applyFwd t b = some t') : applyBwd t' b = t := by
  unfold applyFwd at h
  cases hrem : removeList t.m_Utxos b.m_vInputs with
  | none => rw [hrem] at h; exact absurd h (by simp)
  | some u =>
    rw [hrem] at h
    cases hker : kernelAddList t.m_Kernels b.m_vKernels with
    | none => rw [hker] at h; exact absurd h (by simp)
    | some k =>
      rw [hker] at h
      obtain ⟨hle, hu⟩ := removeList_spec hrem
      have hk := kernelAddList_spec hker
      simp only [Option.some.injEq] at h
      subst h
      simp only [applyBwd, addList_eq, eraseList_eq, hu, hk]
      have h1 : t.m_Utxos - (b.m_vInputs : Multiset Nat) + b.m_vOutputs
          - b.m_vOutputs + b.m_vInputs = t.m_Utxos := by
        rw [add_tsub_cancel_right, tsub_add_cancel_of_le hle]
      have h2 : t.m_Kernels + (b.m_vKernels : Multiset Nat) - b.m_vKernels
          = t.m_Kernels := by rw [add_tsub_cancel_right]
      rw [h1, h2]

/-- A block header (`Block::SystemState::Full`), modelled from the spec's
data model: height, previous-hash, timestamp, difficulty, cumulative work,
the two tree roots, and the PoW solution.  The content-hash of a header is
its identity. -/
structure SystemState where
  m_Height : Nat
  m_Prev : Nat
  m_TimeStamp : Nat
  m_Difficulty : Nat
  m_ChainWork : Nat
  m_Utxos : Nat
  m_Kernels : Nat
  m_PoW : Nat
deriving DecidableEq, Repr

/-- The content-hash of a header: an injective digest of all its fields. -/
def hashOf (s : SystemState) : Nat :=
  encodeL [s.m_Height, s.m_Prev, s.m_TimeStamp, s.m_Difficulty,
    s.m_ChainWork, s.m_Utxos, s.m_Kernels, s.m_PoW]

theorem hashOf_injective : Function.Injective hashOf := by
  intro x y h
  have h' := encodeL_injective h
  simp only [List.cons.injEq, and_true] at h'
  obtain ⟨h1, h2, h3, h4, h5, h6, h7, h8⟩ := h'
  cases x; cases y
  simp only at h1 h2 h3 h4 h5 h6 h7 h8
  simp [h1, h2, h3, h4, h5, h6, h7, h8]

/-- A state ID (`Block::SystemState::ID`): height plus content-hash. -/
structure StateID where
  m_Height : Nat
  m_Hash : Nat
deriving DecidableEq, Repr

/-- The ID of a header. -/
def SystemState.id (s : SystemState) : StateID :=
  ⟨s.m_Height, hashOf s⟩

/-- Structural well-formedness of a header.  Modelled from the spec: a
header must have height at least 1; the cryptographic checks (PoW) are
abstracted as always passing for structurally well-formed headers. -/
def SystemState.IsValid (s : SystemState) : Bool :=
  1 ≤ s.m_Height

/-- A state record kept by the store (`StateRecord` of the spec):
header, optional body (the stored body doubles as the rollback data in this
model), and the flag bits Functional / Reachable / Active. -/
structure StateRec where
  m_State : SystemState
  m_Body : Option Body
  m_Functional : Bool
  m_Reachable : Bool
  m_Active : Bool
deriving DecidableEq, Repr

/- ---------------------------------------------------------------------
The mempool profit index (`NodeProcessor::TxPool`).
--------------------------------------------------------------------- -/

/-- `TxPool::Element::Profit`: fee and size of a pooled transaction. -/
structure Profit where
  m_Fee : Nat
  m_nSize : Nat
deriving DecidableEq, Repr

/-- Modelled from the spec: `Profit::operator<` compares `fee·size_other`
against `fee_other·size`, so the effective key is fee-per-byte, higher
first. -/
def Profit.lt (a b : Profit) : Bool :=
  b.m_Fee * a.m_nSize < a.m_Fee * b.m_nSize

/-- `TxPool::Element`: the profit key together with the transaction payload
(`m_pValue`, abstracted to a `Nat`). -/
structure Element where
  m_Profit : Profit
  m_pValue : Nat
deriving DecidableEq, Repr

/-- Insertion into the intrusive `ProfitSet` multiset: a new element is
placed before the first strictly-worse element, hence after every element
with an equivalent key — the stable upper-bound insertion of a multiset. -/
def profitInsert (e : Element) : List Element → List Element
  | [] => [e]
  | x :: l =>
    if Profit.lt e.m_Profit x.m_Profit then e :: x :: l
    else x :: profitInsert e l

/-- The `ProfitSet` built by inserting the given elements in order. -/
def buildProfitSet (l : List Element) : List Element :=
  l.foldl (fun s e => profitInsert e s) []

/-- The fee-per-byte of `a` is at least that of `b` (as a cross
multiplication, so no division is involved). -/
def feeGe (a b : Element) : Prop :=
  b.m_Profit.m_Fee * a.m_Profit.m_nSize ≤ a.m_Profit.m_Fee * b.m_Profit.m_nSize

instance : DecidableRel feeGe := by
  intro a b
  unfold feeGe
  infer_instance

theorem feeGe_total (a b : Element) : feeGe a b ∨ feeGe b a := by
  unfold feeGe
  omega

theorem feeGe_trans_of_pos {e x y : Element} (hs : 0 < x.m_Profit.m_nSize)
    (h1 : feeGe e x) (h2 : feeGe x y) : feeGe e y := by
  unfold feeGe at *
  have ha : x.m_Profit.m_Fee * e.m_Profit.m_nSize * y.m_Profit.m_nSize ≤
      e.m_Profit.m_Fee * x.m_Profit.m_nSize * y.m_Profit.m_nSize :=
    Nat.mul_le_mul_right _ h1
  have hb : y.m_Profit.m_Fee * x.m_Profit.m_nSize * e.m_Profit.m_nSize ≤
      x.m_Profit.m_Fee * y.m_Profit.m_nSize * e.m_Profit.m_nSize :=
    Nat.mul_le_mul_right _ h2
  have hc : y.m_Profit.m_Fee * e.m_Profit.m_nSize * x.m_Profit.m_nSize ≤
      e.m_Profit.m_Fee * y.m_Profit.m_nSize * x.m_Profit.m_nSize := by
    calc y.m_Profit.m_Fee * e.m_Profit.m_nSize * x.m_Profit.m_nSize
        = y.m_Profit.m_Fee * x.m_Profit.m_nSize * e.m_Profit.m_nSize := by ring
      _ ≤ x.m_Profit.m_Fee * y.m_Profit.m_nSize * e.m_Profit.m_nSize := hb
      _ = x.m_Profit.m_Fee * e.m_Profit.m_nSize * y.m_Profit.m_nSize := by ring
      _ ≤ e.m_Profit.m_Fee * x.m_Profit.m_nSize * y.m_Profit.m_nSize := ha
      _ = e.m_Profit.m_Fee * y.m_Profit.m_nSize * x.m_Profit.m_nSize := by ring
  exact Nat.le_of_mul_le_mul_right hc hs

theorem mem_profitInsert {e y : Element} {l : List Element} :
    y ∈ profitInsert e l ↔ y = e ∨ y ∈ l := by
  induction l with
  | nil => simp [profitInsert]
  | cons x l ih =>
    by_cases hlt : Profit.lt e.m_Profit x.m_Profit = true
    · simp [profitInsert, hlt]
    · simp only [profitInsert, if_neg hlt, List.mem_cons, ih]
      tauto

theorem profitInsert_pairwise {l : List Element} (e : Element)
    (h : l.Pairwise feeGe) : (profitInsert e l).Pairwise feeGe := by
  induction l with
  | nil => simp [profitInsert]
  | cons x l ih =>
    rw [List.pairwise_cons] at h
    obtain ⟨hx, hl⟩ := h
    by_cases hlt : Profit.lt e.m_Profit x.m_Profit = true
    · simp only [profitInsert, if_pos hlt]
      simp only [Profit.lt, decide_eq_true_eq] at hlt
      have hxs : 0 < x.m_Profit.m_nSize := by
        rcases Nat.eq_zero_or_pos x.m_Profit.m_nSize with h0 | h0
        · rw [h0, Nat.mul_zero] at hlt; omega
        · exact h0
      have hex : feeGe e x := le_of_lt hlt
      rw [List.pairwise_cons]
      refine ⟨?_, List.Pairwise.cons hx hl⟩
      intro y hy
      rcases List.mem_cons.mp hy with hy | hy
      · subst hy; exact hex
      · exact feeGe_trans_of_pos hxs hex (hx y hy)
    · simp only [profitInsert, if_neg hlt]
      simp only [Profit.lt, decide_eq_true_eq, not_lt] at hlt
      rw [List.pairwise_cons]
      refine ⟨?_, ih hl⟩
      intro y hy
      rcases mem_profitInsert.mp hy with hy | hy
      · subst hy; exact hlt
      · exact hx y hy

theorem buildProfitSet_pairwise (l : List Element) :
    (buildProfitSet l).Pairwise feeGe := by
  unfold buildProfitSet
  have H : ∀ (init : List Element), init.Pairwise feeGe →
      (l.foldl (fun s e => profitInsert e s) init).Pairwise feeGe := by
    induction l with
    | nil => intro init h; simpa using h
    | cons e l ih =>
      intro init h
      exact ih _ (profitInsert_pairwise e h)
  exact H [] (by simp)

/-- Membership of an element in the fee-per-byte class `f / sz` (stated by
cross multiplication). -/
def sameKey (f sz : Nat) (x : Element) : Bool :=
  x.m_Profit.m_Fee * sz == f * x.m_Profit.m_nSize

theorem noClassAfter {f sz : Nat} {e x y : Element}
    (hsz : 0 < sz) (hes : 0 < e.m_Profit.m_nSize)
    (hys : 0 < y.m_Profit.m_nSize)
    (hce : sameKey f sz e = true) (hcy : sameKey f sz y = true)
    (hlt : Profit.lt e.m_Profit x.m_Profit = true)
    (hge : feeGe x y) : False := by
  simp only [sameKey, beq_iff_eq] at hce hcy
  simp only [Profit.lt, decide_eq_true_eq] at hlt
  unfold feeGe at hge
  set ef := e.m_Profit.m_Fee
  set es := e.m_Profit.m_nSize
  set xf := x.m_Profit.m_Fee
  set xs := x.m_Profit.m_nSize
  set yf := y.m_Profit.m_Fee
  set ys := y.m_Profit.m_nSize
  have h1 : ef * ys = yf * es := by
    have : ef * ys * sz = yf * es * sz := by
      calc ef * ys * sz = ef * sz * ys := by ring
        _ = f * es * ys := by rw [hce]
        _ = f * ys * es := by ring
        _ = yf * sz * es := by rw [hcy]
        _ = yf * es * sz := by ring
    exact Nat.eq_of_mul_eq_mul_right hsz this
  have h2 : xf * es * ys < ef * xs * ys :=
    (Nat.mul_lt_mul_right hys).mpr hlt
  have h3 : yf * xs * es ≤ xf * ys * es := Nat.mul_le_mul_right es hge
  have hlt2 : yf * es * xs < yf * es * xs := by
    calc yf * es * xs = yf * xs * es := by ring
      _ ≤ xf * ys * es := h3
      _ = xf * es * ys := by ring
      _ < ef * xs * ys := h2
      _ = ef * ys * xs := by ring
      _ = yf * es * xs := by rw [h1]
  exact absurd hlt2 (lt_irrefl _)

theorem filter_profitInsert {f sz : Nat} {e : Element} {s : List Element}
    (hsz : 0 < sz) (hes : 0 < e.m_Profit.m_nSize)
    (hpos : ∀ x ∈ s, 0 < x.m_Profit.m_nSize)
    (hsort : s.Pairwise feeGe) :
    (profitInsert e s).filter (sameKey f sz) =
      if sameKey f sz e then s.filter (sameKey f sz) ++ [e]
      else s.filter (sameKey f sz) := by
  induction s with
  | nil =>
    by_cases hce : sameKey f sz e = true <;>
      simp [profitInsert, List.filter, hce]
  | cons x s ih =>
    rw [List.pairwise_cons] at hsort
    obtain ⟨hx, hs⟩ := hsort
    have hposx : 0 < x.m_Profit.m_nSize := hpos x (by simp)
    have hposs : ∀ y ∈ s, 0 < y.m_Profit.m_nSize :=
      fun y hy => hpos y (List.mem_cons_of_mem x hy)
    by_cases hlt : Profit.lt e.m_Profit x.m_Profit = true
    · simp only [profitInsert, if_pos hlt]
      by_cases hce : sameKey f sz e = true
      · have hnone : (x :: s).filter (sameKey f sz) = [] := by
          rw [List.filter_eq_nil_iff]
          intro y hy
          rcases List.mem_cons.mp hy with hy | hy
          · subst hy
            intro hcy
            exact noClassAfter hsz hes hposx hce hcy hlt (le_refl _)
          · intro hcy
            exact noClassAfter hsz hes (hposs y hy) hce hcy hlt (hx y hy)
        rw [if_pos hce, hnone]
        simp only [List.nil_append]
        rw [List.filter_cons_of_pos hce, hnone]
      · rw [if_neg hce, List.filter_cons_of_neg (by simpa using hce)]
    · simp only [profitInsert, if_neg hlt]
      by_cases hcx : sameKey f sz x = true
      · rw [List.filter_cons_of_pos hcx, List.filter_cons_of_pos hcx,
          ih hposs hs]
        by_cases hce : sameKey f sz e = true <;> simp [hce]
      · rw [List.filter_cons_of_neg (by simpa using hcx),
          List.filter_cons_of_neg (by simpa using hcx), ih hposs hs]

theorem buildProfitSet_filter {f sz : Nat} (hsz : 0 < sz)
    {l : List Element} (hpos : ∀ x ∈ l, 0 < x.m_Profit.m_nSize) :
    (buildProfitSet l).filter (sameKey f sz) = l.filter (sameKey f sz) := by
  unfold buildProfitSet
  have H : ∀ (init : List Element), init.Pairwise feeGe →
      (∀ x ∈ init, 0 < x.m_Profit.m_nSize) →
      (l.foldl (fun s e => profitInsert e s) init).filter (sameKey f sz) =
        init.filter (sameKey f sz) ++ l.filter (sameKey f sz) := by
    induction l with
    | nil => intro init hs hp; simp
    | cons e l ih =>
      intro init hs hp
      have hpe : 0 < e.m_Profit.m_nSize := hpos e (by simp)
      have hpl : ∀ x ∈ l, 0 < x.m_Profit.m_nSize :=
        fun x hx => hpos x (List.mem_cons_of_mem e hx)
      have hp' : ∀ x ∈ profitInsert e init, 0 < x.m_Profit.m_nSize := by
        intro x hx
        rcases mem_profitInsert.mp hx with hx | hx
        · subst hx; exact hpe
        · exact hp x hx
      simp only [List.foldl_cons]
      rw [ih hpl (profitInsert e init) (profitInsert_pairwise e hs) hp',
        filter_profitInsert hsz hpe hp hs]
      by_cases hce : sameKey f sz e = true
      · rw [if_pos hce, List.filter_cons_of_pos hce]
        simp
      · rw [if_neg hce, List.filter_cons_of_neg (by simpa using hce)]
  have := H [] (by simp) (by simp)
  simpa using this

/-- Claim C6 — the mempool's profit index orders entries by comparing
`a.fee * b.size` against `b.fee * a.size` (effective key fee-per-byte,
descending); equivalent keys are kept in insertion order (the multiset
insert is an upper-bound insert); hence draining the pool in index order
yields a non-increasing fee-per-byte sequence.  The fee-per-byte comparison
is stated by cross multiplication; the stability conjunct is stated for
every fee-per-byte class `f / sz` with positive denominator, over pools of
positive-size transactions. -/
theorem C6_profit_order (l : List Element) :
    (∀ a b : Profit, Profit.lt a b = true ↔ b.m_Fee * a.m_nSize < a.m_Fee * b.m_nSize) ∧
    (buildProfitSet l).Pairwise feeGe ∧
    (∀ f sz, 0 < sz → (∀ x ∈ l, 0 < x.m_Profit.m_nSize) →
      (buildProfitSet l).filter (sameKey f sz) = l.filter (sameKey f sz)) := by
  refine ⟨?_, buildProfitSet_pairwise l, ?_⟩
  · intro a b
    simp [Profit.lt]
  · intro f sz hsz hpos
    exact buildProfitSet_filter hsz hpos

/- ---------------------------------------------------------------------
The state store and the chain processor.
--------------------------------------------------------------------- -/

/-- The state store: the list of state records, in insertion order
(`NodeDB` restricted to what the processor uses). -/
abbrev Store := List StateRec

/-- Look up a record by content-hash. -/
def findRec (st : Store) (h : Nat) : Option StateRec :=
  st.find? (fun r => hashOf r.m_State == h)

/-- Is a record with the given hash present. -/
def hasRec (st : Store) (h : Nat) : Bool :=
  (findRec st h).isSome

/-- Fueled reachability walk: a record is reachable when it is Functional
and its parent chain of Functional records reaches a height-1 record.
The fuel is the height of the record under examination. -/
def reachDGo (st : Store) : Nat → StateRec → Bool
  | 0, _ => false
  | fuel + 1, r =>
    r.m_Functional &&
      (r.m_State.m_Height == 1 ||
        match findRec st r.m_State.m_Prev with
        | none => false
        | some p =>
          (p.m_State.m_Height + 1 == r.m_State.m_Height) && reachDGo st fuel p)

/-- Modelled from the spec: the Reachable property — an unbroken chain of
Functional ancestors back to genesis (height 1), the record itself
included. -/
def reachD (st : Store) (r : StateRec) : Bool :=
  reachDGo st r.m_State.m_Height r

/-- Modelled from the spec: the Reachable-flag cascade.  Re-derives the
Reachable bit of every record from the Functional bits and the parent
links; `OnState`'s cascade to the new record and its known descendants,
and the failure path's cascade of Reachable-removal, are both instances of
this recomputation. -/
def recomputeReach (st : Store) : Store :=
  st.map (fun r => { r with m_Reachable := reachD st r })

/-- Fueled chain walk: the full ancestor chain of a record (ascending, the
height-1 root first), `none` if a link is missing or inconsistent. -/
def chainToGo (st : Store) : Nat → StateRec → Option (List StateRec)
  | 0, _ => none
  | fuel + 1, r =>
    if r.m_State.m_Height == 1 then some [r]
    else
      match findRec st r.m_State.m_Prev with
      | none => none
      | some p =>
        if p.m_State.m_Height + 1 == r.m_State.m_Height then
          match chainToGo st fuel p with
          | none => none
          | some c => some (c ++ [r])
        else none

/-- The ancestor chain of a record, genesis first, the record itself
last. -/
def chainTo (st : Store) (r : StateRec) : Option (List StateRec) :=
  chainToGo st r.m_State.m_Height r

/-- Modelled from the spec: the tip-selection order — higher cumulative
work first, ties broken by the lower header hash. -/
def betterRec (a b : StateRec) : Bool :=
  b.m_State.m_ChainWork < a.m_State.m_ChainWork ||
    (a.m_State.m_ChainWork == b.m_State.m_ChainWork &&
      hashOf a.m_State < hashOf b.m_State)

/-- One step of the scan for the best Reachable state. -/
def bestStep (acc : Option StateRec) (r : StateRec) : Option StateRec :=
  if r.m_Reachable then
    match acc with
    | none => some r
    | some a => if betterRec r a then some r else acc
  else acc

/-- Modelled from the spec: step 1 of `TryGoUp` — the Reachable state with
maximum cumulative work, ties broken by the lower hash. -/
def bestReachable (st : Store) : Option StateRec :=
  st.foldl bestStep none

/-- The pruning configuration (`NodeProcessor::Horizon`): a disabled
horizon is represented as `none`. -/
structure Horizon where
  m_Branching : Option Nat
  m_Schwarzschild : Option Nat
deriving DecidableEq, Repr

/-- Modelled from the spec: `Horizon::Horizon()` — by default both horizons
are disabled. -/
def Horizon.default : Horizon := ⟨none, none⟩

/-- The chain processor state: the store, the two commitment trees, the
horizon configuration and the fossil height (the height at and below which
bodies have been erased; heights at or below it are no longer relevant). -/
structure NodeProcessor where
  m_DB : Store
  m_Utxos : Multiset Nat
  m_Kernels : Multiset Nat
  m_Horizon : Horizon
  m_FossilHeight : Nat
deriving DecidableEq

/-- A freshly initialized processor: empty store, empty trees, the given
horizon configuration (`Horizon.default` unless configured). -/
def NodeProcessor.init (hz : Horizon) : NodeProcessor :=
  ⟨[], 0, 0, hz, 0⟩

/-- Modelled from the spec: `active_at(H)` — the Active record at height
`H`, if any. -/
def activeAt (st : Store) (h : Nat) : Option StateRec :=
  st.find? (fun r => r.m_Active && (r.m_State.m_Height == h))

/-- One step of the scan for the highest Active height. -/
def activeHStep (m : Nat) (r : StateRec) : Nat :=
  if r.m_Active then max m r.m_State.m_Height else m

/-- The height of the active tip (0 when nothing is Active). -/
def activeTipHeight (st : Store) : Nat :=
  st.foldl activeHStep 0

/-- The active chain: the Active records laid out by height, from height 1
up to the active tip. -/
def activeChain (σ : NodeProcessor) : List StateRec :=
  (List.range (activeTipHeight σ.m_DB)).filterMap
    (fun i => activeAt σ.m_DB (i + 1))

/-- Modelled from the spec: `tip()` — the highest Active record, if
any. -/
def tipRec (σ : NodeProcessor) : Option StateRec :=
  activeAt σ.m_DB (activeTipHeight σ.m_DB)

/-- Modelled from the spec: `get_CurrentState` for `Block::SystemState::ID`
— `none` plays the role of the `false` return (no valid state so far). -/
def get_CurrentState (σ : NodeProcessor) : Option StateID :=
  (tipRec σ).map (fun r => r.m_State.id)

/-- Modelled from the spec: `get_CurrentState` for
`Block::SystemState::Full`. -/
def get_CurrentStateFull (σ : NodeProcessor) : Option SystemState :=
  (tipRec σ).map (fun r => r.m_State)

/-- Modelled from the spec: `IsRelevantHeight` — heights at or below the
fossil height (whose bodies have been erased) are no longer relevant. -/
def IsRelevantHeight (σ : NodeProcessor) (h : Nat) : Bool :=
  σ.m_FossilHeight < h

/-- Store the body of the record with the given hash. -/
def setBody (st : Store) (h : Nat) (b : Body) : Store :=
  st.map (fun r =>
    if hashOf r.m_State == h then { r with m_Body := some b } else r)

/-- Set or clear the Active flag of the record with the given hash. -/
def setActive (st : Store) (h : Nat) (v : Bool) : Store :=
  st.map (fun r =>
    if hashOf r.m_State == h then { r with m_Active := v } else r)

/-- Clear the Functional flag of the record with the given hash. -/
def clearFunctional (st : Store) (h : Nat) : Store :=
  st.map (fun r =>
    if hashOf r.m_State == h then { r with m_Functional := false } else r)

/-- Modelled from the spec: the failure path of the forward walk — the
failing record is flagged non-Functional and the Reachable-removal cascades
to its descendants (by recomputation). -/
def markNonFunctional (σ : NodeProcessor) (h : Nat) : NodeProcessor :=
  { σ with m_DB := recomputeReach (clearFunctional σ.m_DB h) }

/-- Modelled from the spec: one forward `HandleBlock` step — requires the
body, applies its elements to the trees, verifies the resulting roots
against the header, and on success flags the record Active.  Any failure
leaves the processor untouched (the enclosing store transaction is
aborted). -/
def handleFwd (σ : NodeProcessor) (r : StateRec) : Option NodeProcessor :=
  match r.m_Body with
  | none => none
  | some b =>
    match applyFwd ⟨σ.m_Utxos, σ.m_Kernels⟩ b with
    | none => none
    | some t =>
      if treeRoot t.m_Utxos == r.m_State.m_Utxos &&
          treeRoot t.m_Kernels == r.m_State.m_Kernels then
        some { σ with
          m_DB := setActive σ.m_DB (hashOf r.m_State) true,
          m_Utxos := t.m_Utxos,
          m_Kernels := t.m_Kernels }
      else none

/-- Modelled from the spec: one backward `HandleBlock` step (`Rollback`) —
undoes the block's effects using the stored rollback data and clears the
Active flag.  Removal from the trees must succeed, so the undo is total. -/
def undoStep (σ : NodeProcessor) (r : StateRec) : NodeProcessor :=
  match r.m_Body with
  | none => σ
  | some b =>
    let t := applyBwd ⟨σ.m_Utxos, σ.m_Kernels⟩ b
    { σ with
      m_DB := setActive σ.m_DB (hashOf r.m_State) false,
      m_Utxos := t.m_Utxos,
      m_Kernels := t.m_Kernels }

/-- Modelled from the spec: `HandleBlock(sid, bFwd)` — the forward or
backward application of the identified block. -/
def HandleBlock (σ : NodeProcessor) (sid : StateID) (bFwd : Bool) :
    Option NodeProcessor :=
  match findRec σ.m_DB sid.m_Hash with
  | none => none
  | some r =>
    if r.m_State.m_Height == sid.m_Height then
      if bFwd then handleFwd σ r
      else if r.m_Body.isSome then some (undoStep σ r) else none
    else none

/-- The length of the longest common prefix of two chains, compared by
header hash. -/
def commonPrefixLen : List StateRec → List StateRec → Nat
  | a :: as, b :: bs =>
    if hashOf a.m_State == hashOf b.m_State then commonPrefixLen as bs + 1
    else 0
  | _, _ => 0

/-- Outcome of the forward walk of `TryGoUp`. -/
inductive PassResult where
  | done (σ : NodeProcessor) (prog : Bool)
  | stuck (σ : NodeProcessor) (prog : Bool)
  | failed (σ : NodeProcessor) (h : Nat) (prog : Bool)
deriving DecidableEq

/-- Modelled from the spec: step 5 of `TryGoUp` — walk forward along the
path; a missing body stops the walk (the data will be requested), a failed
contextual application reports the failing record. -/
def forwardPass : NodeProcessor → List StateRec → Bool → PassResult
  | σ, [], prog => .done σ prog
  | σ, r :: rest, prog =>
    if r.m_Body.isNone then .stuck σ prog
    else
      match handleFwd σ r with
      | none => .failed σ (hashOf r.m_State) prog
      | some σ' => forwardPass σ' rest true

/-- Outcome of one iteration of `TryGoUp`. -/
inductive IterResult where
  | exit (σ : NodeProcessor) (prog : Bool)
  | cont (σ : NodeProcessor) (prog : Bool)
  | failedR (σ : NodeProcessor) (h : Nat) (prog : Bool)
deriving DecidableEq

/-- Modelled from the spec: steps 3–5 of `TryGoUp` — find the fork point
with the target's chain, roll the active chain back to it (refused when a
record to undo has lost its body to the Schwarzschild horizon), then walk
forward towards the target. -/
def tryGoUpIter (σ : NodeProcessor) (best : StateRec) : IterResult :=
  match chainTo σ.m_DB best with
  | none => .exit σ false
  | some cb =>
    let ac := activeChain σ
    let k := commonPrefixLen ac cb
    let toUndo := (ac.drop k).reverse
    if toUndo.any (fun r => r.m_Body.isNone) then .exit σ false
    else
      let σ1 := toUndo.foldl undoStep σ
      match forwardPass σ1 (cb.drop k) false with
      | .done σ2 prog => .cont σ2 prog
      | .stuck σ2 prog => .exit σ2 prog
      | .failed σ2 h prog => .failedR σ2 h prog

/-- Is the given record the current active tip. -/
def atTip (σ : NodeProcessor) (best : StateRec) : Bool :=
  match tipRec σ with
  | some t => hashOf t.m_State == hashOf best.m_State
  | none => false

/-- Modelled from the spec: the `TryGoUp` loop — pick the best Reachable
target, stop if the tip already is the target, otherwise run one
rollback/forward iteration; a contextual failure marks the record
non-Functional and restarts from step 1. -/
def tryGoUpLoop : Nat → NodeProcessor → Bool → NodeProcessor × Bool
  | 0, σ, prog => (σ, prog)
  | fuel + 1, σ, prog =>
    match bestReachable σ.m_DB with
    | none => (σ, prog)
    | some best =>
      if atTip σ best then (σ, prog)
      else
        match tryGoUpIter σ best with
        | .exit σ' p => (σ', prog || p)
        | .cont σ' p => tryGoUpLoop fuel σ' (prog || p)
        | .failedR σ' h p => tryGoUpLoop fuel (markNonFunctional σ' h) (prog || p)

/-- Fueled walk deciding whether the header `s` is the record with hash
`tgt` or one of its descendants (walks parent links downward from `s`). -/
def isDescGo (st : Store) : Nat → SystemState → Nat → Bool
  | 0, s, tgt => hashOf s == tgt
  | fuel + 1, s, tgt =>
    if hashOf s == tgt then true
    else
      match findRec st s.m_Prev with
      | none => false
      | some p =>
        if p.m_State.m_Height + 1 == s.m_Height then
          isDescGo st fuel p.m_State tgt
        else false

/-- The header `s` lies in the branch rooted at the record with hash
`tgt`. -/
def isDescS (st : Store) (s : SystemState) (tgt : Nat) : Bool :=
  isDescGo st s.m_Height s tgt

/-- `d` lies in the branch rooted at `r` (it is `r` or a descendant). -/
def isDesc (st : Store) (d r : StateRec) : Bool :=
  isDescS st d.m_State (hashOf r.m_State)

/-- One step of the scan for the maximum height in a branch. -/
def maxStep (st : Store) (r : StateRec) (m : Nat) (d : StateRec) : Nat :=
  if isDesc st d r then max m d.m_State.m_Height else m

/-- The maximum height present in the branch rooted at `r` — the height of
the branch's tip. -/
def subtreeMax (st : Store) (r : StateRec) : Nat :=
  st.foldl (maxStep st r) 0

/-- A record survives the branching horizon when it is Active or the tip
of its branch is above the cut height. -/
def pruneKeep (st : Store) (cut : Nat) (r : StateRec) : Bool :=
  r.m_Active || decide (cut < subtreeMax st r)

/-- Fossilization of one record: an Active record at or below the cut
height loses its body (and with it the rollback data). -/
def pruneErase (cut : Nat) (r : StateRec) : StateRec :=
  if r.m_Active && decide (r.m_State.m_Height ≤ cut) then
    { r with m_Body := none }
  else r

/-- Modelled from the spec: `PruneOld(h)` — delete every non-active branch
whose tip is at or below `h` minus the branching horizon (re-deriving the
Reachable flags afterwards); erase the body (and rollback data) of every
Active record at or below `h` minus the Schwarzschild horizon, raising the
fossil height accordingly. -/
def PruneOld (σ : NodeProcessor) (hTip : Nat) : NodeProcessor :=
  let st1 :=
    match σ.m_Horizon.m_Branching with
    | none => σ.m_DB
    | some hb =>
      recomputeReach (σ.m_DB.filter (pruneKeep σ.m_DB (hTip - hb)))
  let fossil :=
    match σ.m_Horizon.m_Schwarzschild with
    | none => σ.m_FossilHeight
    | some he => max σ.m_FossilHeight (hTip - he)
  let st2 :=
    match σ.m_Horizon.m_Schwarzschild with
    | none => st1
    | some he => st1.map (pruneErase (hTip - he))
  { σ with m_DB := st2, m_FossilHeight := fossil }

/-- Modelled from the spec: `TryGoUp` — run the loop; when at least one
block was applied, notify (`OnNewState`, no state effect here) and apply
pruning at the new tip height. -/
def TryGoUp (σ : NodeProcessor) : NodeProcessor :=
  let res := tryGoUpLoop (σ.m_DB.length + 2) σ false
  if res.2 then
    match tipRec res.1 with
    | some t => PruneOld res.1 t.m_State.m_Height
    | none => res.1
  else res.1

/-- Modelled from the spec: `OnState(header, peer)` — reject malformed or
irrelevant or already-known headers (returning `false`, not dirty),
otherwise persist the record, cascade the Reachable flag and trigger
`TryGoUp`; returns `true` when the data was relevant and added. -/
def OnState (σ : NodeProcessor) (s : SystemState) (peer : Nat) :
    Bool × NodeProcessor :=
  if ¬ s.IsValid then (false, σ)
  else if ¬ IsRelevantHeight σ s.m_Height then (false, σ)
  else if hasRec σ.m_DB (hashOf s) then (false, σ)
  else
    (true, TryGoUp { σ with
      m_DB := recomputeReach (σ.m_DB ++ [⟨s, none, true, false, false⟩]) })

/-- Modelled from the spec: `OnBlock(id, body, peer)` — bodies for
irrelevant, unknown or already-bodied states are rejected (returning
`false`); otherwise the body is persisted and `TryGoUp` triggered. -/
def OnBlock (σ : NodeProcessor) (id : StateID) (b : Body) (peer : Nat) :
    Bool × NodeProcessor :=
  if ¬ IsRelevantHeight σ id.m_Height then (false, σ)
  else
    match findRec σ.m_DB id.m_Hash with
    | none => (false, σ)
    | some r =>
      if r.m_State.m_Height ≠ id.m_Height then (false, σ)
      else if r.m_Body.isSome then (false, σ)
      else (true, TryGoUp { σ with m_DB := setBody σ.m_DB id.m_Hash b })

/-- A delivered peer message: a header or a block body. -/
inductive Msg where
  | state (s : SystemState) (peer : Nat)
  | block (id : StateID) (b : Body) (peer : Nat)
deriving DecidableEq

/-- Deliver one message to the processor. -/
def applyMsg (σ : NodeProcessor) : Msg → NodeProcessor
  | .state s p => (OnState σ s p).2
  | .block id b p => (OnBlock σ id b p).2

/-- Deliver a list of messages in order. -/
def run (σ : NodeProcessor) (msgs : List Msg) : NodeProcessor :=
  msgs.foldl applyMsg σ

/- ---------------------------------------------------------------------
Store helper lemmas.
--------------------------------------------------------------------- -/

theorem findRec_map_pres {f : StateRec → StateRec}
    (hf : ∀ r, (f r).m_State = r.m_State) (st : Store) (h : Nat) :
    findRec (st.map f) h = (findRec st h).map f := by
  induction st with
  | nil => simp [findRec]
  | cons r st ih =>
    simp only [findRec, List.map_cons, List.find?_cons] at *
    rw [hf r]
    by_cases hr : (hashOf r.m_State == h) = true
    · simp [hr]
    · simp only [Bool.not_eq_true] at hr
      simp [hr, ih]

theorem setActive_state (st : Store) (h : Nat) (v : Bool) (r : StateRec)
    (hr : r ∈ setActive st h v) :
    ∃ r0 ∈ st, r0.m_State = r.m_State ∧ r0.m_Body = r.m_Body := by
  simp only [setActive, List.mem_map] at hr
  obtain ⟨r0, hr0, hEq⟩ := hr
  by_cases hh : (hashOf r0.m_State == h) = true
  · rw [if_pos hh] at hEq
    exact ⟨r0, hr0, by rw [← hEq], by rw [← hEq]⟩
  · rw [if_neg hh] at hEq
    exact ⟨r0, hr0, by rw [hEq], by rw [hEq]⟩

theorem findRec_setActive (st : Store) (h h' : Nat) (v : Bool) :
    findRec (setActive st h v) h' =
      (findRec st h').map (fun r =>
        if hashOf r.m_State == h then { r with m_Active := v } else r) :=
  findRec_map_pres (fun r => by by_cases hh : (hashOf r.m_State == h) = true <;>
    simp [hh]) st h'

theorem findRec_setBody (st : Store) (h h' : Nat) (b : Body) :
    findRec (setBody st h b) h' =
      (findRec st h').map (fun r =>
        if hashOf r.m_State == h then { r with m_Body := some b } else r) :=
  findRec_map_pres (fun r => by by_cases hh : (hashOf r.m_State == h) = true <;>
    simp [hh]) st h'

theorem findRec_some_mem {st : Store} {h : Nat} {r : StateRec}
    (hr : findRec st h = some r) : r ∈ st ∧ hashOf r.m_State = h := by
  unfold findRec at hr
  refine ⟨List.mem_of_find?_eq_some hr, ?_⟩
  have := List.find?_some hr
  simpa using this

/- ---------------------------------------------------------------------
Claim C2: reorg round trip.
--------------------------------------------------------------------- -/

theorem HandleBlock_false_eq {σ : NodeProcessor} {sid : StateID}
    {r : StateRec} (hfind : findRec σ.m_DB sid.m_Hash = some r)
    (hht : (r.m_State.m_Height == sid.m_Height) = true)
    (hb : r.m_Body.isSome = true) :
    HandleBlock σ sid false = some (undoStep σ r) := by
  simp [HandleBlock, hfind, hht, hb]

/-- Claim C2 — for every block applicable at the current state (the forward
`HandleBlock` succeeds), applying the block forward and then backward
leaves both the UTXO-tree root and the kernel-tree root equal to their
values before the forward application. -/
theorem C2_handleBlock_roundtrip (σ σ' : NodeProcessor) (sid : StateID)
    (h : HandleBlock σ sid true = some σ') :
    ∃ σ'', HandleBlock σ' sid false = some σ'' ∧
      treeRoot σ''.m_Utxos = treeRoot σ.m_Utxos ∧
      treeRoot σ''.m_Kernels = treeRoot σ.m_Kernels := by
  unfold HandleBlock at h
  cases hfind : findRec σ.m_DB sid.m_Hash with
  | none => rw [hfind] at h; exact absurd h (by simp)
  | some r =>
    simp only [hfind] at h
    by_cases hht : (r.m_State.m_Height == sid.m_Height) = true
    · rw [if_pos hht, if_pos trivial] at h
      unfold handleFwd at h
      cases hb : r.m_Body with
      | none => rw [hb] at h; exact absurd h (by simp)
      | some b =>
        simp only [hb] at h
        cases happ : applyFwd ⟨σ.m_Utxos, σ.m_Kernels⟩ b with
        | none => simp only [happ] at h; exact absurd h (by simp)
        | some t =>
          simp only [happ] at h
          by_cases hroot : (treeRoot t.m_Utxos == r.m_State.m_Utxos &&
              treeRoot t.m_Kernels == r.m_State.m_Kernels) = true
          · rw [if_pos hroot] at h
            simp only [Option.some.injEq] at h
            subst h
            have hrt := applyBwd_applyFwd happ
            have ht : (⟨t.m_Utxos, t.m_Kernels⟩ : Trees) = t := rfl
            have hfind1 :
                findRec (setActive σ.m_DB (hashOf r.m_State) true) sid.m_Hash
                  = some { r with m_Active := true } := by
              rw [findRec_setActive, hfind]
              simp
            have hH := @HandleBlock_false_eq
              { σ with
                m_DB := setActive σ.m_DB (hashOf r.m_State) true,
                m_Utxos := t.m_Utxos, m_Kernels := t.m_Kernels }
              sid { r with m_Active := true }
              hfind1 hht (by simp [hb])
            refine ⟨_, hH, ?_, ?_⟩
            · show treeRoot (undoStep _ _).m_Utxos = _
              simp only [undoStep, hb, ht, hrt]
            · show treeRoot (undoStep _ _).m_Kernels = _
              simp only [undoStep, hb, ht, hrt]
          · rw [if_neg hroot] at h
            exact absurd h (by simp)
    · rw [if_neg hht] at h
      exact absurd h (by simp)

/- ---------------------------------------------------------------------
Claim C9: the default horizon disables pruning.
--------------------------------------------------------------------- -/

theorem PruneOld_default {σ : NodeProcessor} (hTip : Nat)
    (hhz : σ.m_Horizon = Horizon.default) : PruneOld σ hTip = σ := by
  unfold PruneOld
  rw [hhz]
  simp only [Horizon.default]
  rw [show ({ m_Branching := none, m_Schwarzschild := none } : Horizon)
    = σ.m_Horizon from hhz.symm]

/-- Claim C9 — a default-constructed `Horizon` disables both horizons, and
a processor whose horizon is the default performs no branch pruning and no
body erasure at any tip height: `PruneOld` is the identity. -/
theorem C9_default_horizon_no_pruning :
    Horizon.default = ⟨none, none⟩ ∧
    (∀ hz, (NodeProcessor.init hz).m_Horizon = hz) ∧
    (∀ σ hTip, σ.m_Horizon = Horizon.default → PruneOld σ hTip = σ) :=
  ⟨rfl, fun _ => rfl, fun _ hTip hhz => PruneOld_default hTip hhz⟩

/- ---------------------------------------------------------------------
Claim C10: get_CurrentState.
--------------------------------------------------------------------- -/

theorem activeTipHeight_ge (st : Store) :
    ∀ r ∈ st, r.m_Active = true →
      r.m_State.m_Height ≤ activeTipHeight st := by
  unfold activeTipHeight
  have hmono : ∀ (l : List StateRec) (acc : Nat),
      acc ≤ l.foldl activeHStep acc := by
    intro l
    induction l with
    | nil => intro acc; exact Nat.le_refl _
    | cons x l ih =>
      intro acc
      simp only [List.foldl_cons]
      refine le_trans ?_ (ih (activeHStep acc x))
      unfold activeHStep
      by_cases hx : x.m_Active = true
      · rw [if_pos hx]
        exact Nat.le_max_left _ _
      · rw [if_neg hx]
  suffices H : ∀ (l : List StateRec) (acc : Nat), ∀ r ∈ l,
      r.m_Active = true →
      r.m_State.m_Height ≤ l.foldl activeHStep acc by
    intro r hr ha
    exact H st 0 r hr ha
  intro l
  induction l with
  | nil => intro acc r hr; simp at hr
  | cons x l ih =>
    intro acc r hr ha
    simp only [List.foldl_cons]
    rcases List.mem_cons.mp hr with hr | hr
    · subst hr
      refine le_trans ?_ (hmono l _)
      unfold activeHStep
      rw [if_pos ha]
      exact Nat.le_max_right _ _
    · exact ih _ r hr ha

theorem activeTipHeight_cases (st : Store) :
    activeTipHeight st = 0 ∨
      ∃ r ∈ st, r.m_Active = true ∧
        activeTipHeight st = r.m_State.m_Height := by
  unfold activeTipHeight
  suffices H : ∀ (l : List StateRec) (acc : Nat),
      l.foldl activeHStep acc = acc ∨
      ∃ r ∈ l, r.m_Active = true ∧
        l.foldl activeHStep acc = r.m_State.m_Height by
    rcases H st 0 with h | ⟨r, hr, ha, hval⟩
    · exact Or.inl h
    · exact Or.inr ⟨r, hr, ha, hval⟩
  intro l
  induction l with
  | nil => intro acc; exact Or.inl rfl
  | cons x l ih =>
    intro acc
    simp only [List.foldl_cons]
    by_cases hx : x.m_Active = true
    · have hstep : activeHStep acc x = max acc x.m_State.m_Height := by
        unfold activeHStep
        rw [if_pos hx]
      rw [hstep]
      rcases ih (max acc x.m_State.m_Height) with h | ⟨r, hr, ha, hval⟩
      · rcases Nat.le_total acc x.m_State.m_Height with hle | hle
        · exact Or.inr ⟨x, List.mem_cons_self _ _, hx,
            h.trans (Nat.max_eq_right hle)⟩
        · exact Or.inl (h.trans (Nat.max_eq_left hle))
      · exact Or.inr ⟨r, List.mem_cons_of_mem x hr, ha, hval⟩
    · have hstep : activeHStep acc x = acc := by
        unfold activeHStep
        rw [if_neg hx]
      rw [hstep]
      rcases ih acc with h | ⟨r, hr, ha, hval⟩
      · exact Or.inl h
      · exact Or.inr ⟨r, List.mem_cons_of_mem x hr, ha, hval⟩

theorem activeAt_some {st : Store} {h : Nat} {r : StateRec}
    (hr : activeAt st h = some r) :
    r ∈ st ∧ r.m_Active = true ∧ r.m_State.m_Height = h := by
  unfold activeAt at hr
  have hmem := List.mem_of_find?_eq_some hr
  have hsat := List.find?_some hr
  simp only [Bool.and_eq_true, beq_iff_eq] at hsat
  exact ⟨hmem, hsat.1, hsat.2⟩

theorem activeAt_isSome {st : Store} {h : Nat} {r : StateRec}
    (hr : r ∈ st) (ha : r.m_Active = true) (hh : r.m_State.m_Height = h) :
    (activeAt st h).isSome = true := by
  unfold activeAt
  rw [List.find?_isSome]
  exact ⟨r, hr, by simp [ha, hh]⟩

/-- Claim C10 — `get_CurrentState` returns nothing exactly when no Active
state exists (in particular on a freshly initialized processor), and when
it returns a value, that value is the ID (respectively the full header) of
the Active record of maximal height — the current active tip. -/
theorem C10_get_CurrentState (σ : NodeProcessor) :
    (get_CurrentState σ = none ↔ ∀ r ∈ σ.m_DB, r.m_Active = false) ∧
    (∀ hz, get_CurrentState (NodeProcessor.init hz) = none) ∧
    (∀ sid, get_CurrentState σ = some sid →
      ∃ r, r ∈ σ.m_DB ∧ r.m_Active = true ∧ sid = r.m_State.id ∧
        get_CurrentStateFull σ = some r.m_State ∧
        ∀ r' ∈ σ.m_DB, r'.m_Active = true →
          r'.m_State.m_Height ≤ r.m_State.m_Height) := by
  refine ⟨?_, fun hz => rfl, ?_⟩
  · unfold get_CurrentState tipRec
    rw [Option.map_eq_none']
    constructor
    · intro h2
      intro r hr
      by_contra hact
      rw [Bool.not_eq_false] at hact
      have hle := activeTipHeight_ge σ.m_DB r hr hact
      rcases activeTipHeight_cases σ.m_DB with h0 | ⟨w, hw, hwa, hwh⟩
      · have := activeAt_isSome hr hact
          (show r.m_State.m_Height = activeTipHeight σ.m_DB by omega)
        rw [h2] at this
        simp at this
      · have := activeAt_isSome hw hwa hwh.symm
        rw [h2] at this
        simp at this
    · intro h
      unfold activeAt
      rw [List.find?_eq_none]
      intro r hr
      simp [h r hr]
  · intro sid hsid
    unfold get_CurrentState at hsid
    cases htip : tipRec σ with
    | none => rw [htip] at hsid; exact absurd hsid (by simp)
    | some r =>
      rw [htip] at hsid
      simp only [Option.map_some', Option.some.injEq] at hsid
      unfold tipRec at htip
      obtain ⟨hmem, hact, hht⟩ := activeAt_some htip
      refine ⟨r, hmem, hact, hsid.symm, ?_, ?_⟩
      · unfold get_CurrentStateFull tipRec
        rw [htip]
        rfl
      · intro r' hr' ha'
        have := activeTipHeight_ge σ.m_DB r' hr' ha'
        omega

/- ---------------------------------------------------------------------
Claim C5: tip selection.
--------------------------------------------------------------------- -/

/-- `t` is at least as good a tip as `r`: strictly more cumulative work, or
equal work and a hash at most `r`'s. -/
def domRec (t r : StateRec) : Prop :=
  r.m_State.m_ChainWork < t.m_State.m_ChainWork ∨
    (r.m_State.m_ChainWork = t.m_State.m_ChainWork ∧
      hashOf t.m_State ≤ hashOf r.m_State)

theorem domRec_refl (r : StateRec) : domRec r r :=
  Or.inr ⟨rfl, Nat.le_refl _⟩

theorem domRec_of_not_better {a r : StateRec}
    (h : betterRec r a = false) : domRec a r := by
  unfold betterRec at h
  unfold domRec
  simp only [Bool.or_eq_false_iff, Bool.and_eq_false_iff,
    decide_eq_false_iff_not, not_lt, beq_eq_false_iff_ne, ne_eq] at h
  omega

theorem domRec_of_better {a r : StateRec}
    (h : betterRec r a = true) : domRec r a := by
  unfold betterRec at h
  unfold domRec
  simp only [Bool.or_eq_true, Bool.and_eq_true, decide_eq_true_eq,
    beq_iff_eq] at h
  omega

theorem domRec_trans {t a r : StateRec}
    (h1 : domRec t a) (h2 : domRec a r) : domRec t r := by
  unfold domRec at *
  omega

theorem bestStep_spec (st : List StateRec) :
    ∀ (acc : Option StateRec) (t : StateRec),
      st.foldl bestStep acc = some t →
      ((t ∈ st ∧ t.m_Reachable = true) ∨ acc = some t) ∧
      (∀ r ∈ st, r.m_Reachable = true → domRec t r) ∧
      (∀ a, acc = some a → domRec t a) := by
  induction st with
  | nil =>
    intro acc t h
    simp only [List.foldl_nil] at h
    refine ⟨Or.inr h, by simp, ?_⟩
    intro a ha
    rw [h] at ha
    cases ha
    exact domRec_refl t
  | cons r st ih =>
    intro acc t h
    simp only [List.foldl_cons] at h
    obtain ⟨hmem, hdomst, hdomacc⟩ := ih (bestStep acc r) t h
    by_cases hreach : r.m_Reachable = true
    · have hstep : ∀ x, bestStep acc r = some x →
          (x = r ∨ acc = some x) ∧ domRec x r ∧ ∀ a, acc = some a → domRec x a := by
        intro x hx
        cases acc with
        | none =>
          simp only [bestStep, if_pos hreach, Option.some.injEq] at hx
          subst hx
          exact ⟨Or.inl rfl, domRec_refl r, by simp⟩
        | some a =>
          simp only [bestStep, if_pos hreach] at hx
          by_cases hbr : betterRec r a = true
          · rw [if_pos hbr] at hx
            simp only [Option.some.injEq] at hx
            subst hx
            refine ⟨Or.inl rfl, domRec_refl _, ?_⟩
            intro a' ha'
            cases ha'
            exact domRec_of_better hbr
          · rw [if_neg hbr] at hx
            cases hx
            refine ⟨Or.inr rfl, ?_, ?_⟩
            · exact domRec_of_not_better (Bool.not_eq_true _ |>.mp hbr)
            · intro a' ha'
              cases ha'
              exact domRec_refl _
      have hsome : ∃ x, bestStep acc r = some x := by
        cases acc with
        | none => exact ⟨r, by simp [bestStep, if_pos hreach]⟩
        | some a =>
          by_cases hbr : betterRec r a = true
          · exact ⟨r, by simp [bestStep, if_pos hreach, hbr]⟩
          · exact ⟨a, by simp [bestStep, if_pos hreach, hbr]⟩
      obtain ⟨x, hx⟩ := hsome
      obtain ⟨hxmem, hxdomr, hxdomacc⟩ := hstep x hx
      have hdomx : domRec t x := hdomacc x hx
      refine ⟨?_, ?_, ?_⟩
      · rcases hmem with hmem | hmem
        · exact Or.inl ⟨List.mem_cons_of_mem r hmem.1, hmem.2⟩
        · rw [hx] at hmem
          cases hmem
          rcases hxmem with hxm | hxm
          · subst hxm
            exact Or.inl ⟨List.mem_cons_self _ _, hreach⟩
          · exact Or.inr hxm
      · intro r' hr' hreach'
        rcases List.mem_cons.mp hr' with hr' | hr'
        · subst hr'
          exact domRec_trans hdomx hxdomr
        · exact hdomst r' hr' hreach'
      · intro a ha
        exact domRec_trans hdomx (hxdomacc a ha)
    · have hacc : bestStep acc r = acc := by
        simp only [bestStep, if_neg hreach]
      rw [hacc] at hmem hdomacc
      refine ⟨?_, ?_, hdomacc⟩
      · rcases hmem with hmem | hmem
        · exact Or.inl ⟨List.mem_cons_of_mem r hmem.1, hmem.2⟩
        · exact Or.inr hmem
      · intro r' hr' hreach'
        rcases List.mem_cons.mp hr' with hr' | hr'
        · subst hr'
          exact absurd hreach' hreach
        · exact hdomst r' hr' hreach'

/-- Claim C5 — the target that the `TryGoUp` loop selects
(`bestReachable`, the scrutinee of `tryGoUpLoop`) is a Reachable-flagged
record of the store, and it has maximal cumulative work among all
Reachable records, ties broken in favour of the lower header hash. -/
theorem C5_tryGoUp_target (st : Store) (t : StateRec)
    (h : bestReachable st = some t) :
    t ∈ st ∧ t.m_Reachable = true ∧
    ∀ r ∈ st, r.m_Reachable = true →
      r.m_State.m_ChainWork < t.m_State.m_ChainWork ∨
      (r.m_State.m_ChainWork = t.m_State.m_ChainWork ∧
        hashOf t.m_State ≤ hashOf r.m_State) := by
  unfold bestReachable at h
  obtain ⟨hmem, hdom, _⟩ := bestStep_spec st none t h
  rcases hmem with hmem | hmem
  · exact ⟨hmem.1, hmem.2, fun r hr hre => hdom r hr hre⟩
  · exact absurd hmem (by simp)

/- ---------------------------------------------------------------------
Claim C3: idempotent ingest (amended).
--------------------------------------------------------------------- -/

/-- Claim C3, amended — while the record is still in the store, a repeated
`OnState` with the same header returns `false` and changes nothing, and
`OnState` returns `true` exactly when the header is well-formed, its height
is still relevant, and its record is not in the store; likewise a repeated
`OnBlock` for a state that already has its body returns `false` and changes
nothing, and `OnBlock` returns `true` exactly when the height is relevant
and the identified record exists without a body.  (As stated, the claim
fails once branching-horizon pruning has deleted the record: the header is
then accepted anew — see the counterexample.) -/
theorem C3_ingest_idempotent_amended :
    (∀ σ s p, hasRec σ.m_DB (hashOf s) = true → OnState σ s p = (false, σ)) ∧
    (∀ σ s p, (OnState σ s p).1 = true ↔
      (s.IsValid = true ∧ IsRelevantHeight σ s.m_Height = true ∧
        hasRec σ.m_DB (hashOf s) = false)) ∧
    (∀ σ sid b p r, findRec σ.m_DB sid.m_Hash = some r →
      r.m_Body.isSome = true → OnBlock σ sid b p = (false, σ)) ∧
    (∀ σ sid b p, (OnBlock σ sid b p).1 = true ↔
      (IsRelevantHeight σ sid.m_Height = true ∧
        ∃ r, findRec σ.m_DB sid.m_Hash = some r ∧
          r.m_State.m_Height = sid.m_Height ∧ r.m_Body = none)) := by
  refine ⟨?_, ?_, ?_, ?_⟩
  · intro σ s p hhas
    unfold OnState
    by_cases hv : s.IsValid = true
    · by_cases hrel : IsRelevantHeight σ s.m_Height = true
      · rw [if_neg (by simp [hv]), if_neg (by simp [hrel]), if_pos hhas]
      · rw [if_neg (by simp [hv]),
          if_pos (by simp [Bool.not_eq_true _ |>.mp hrel])]
    · rw [if_pos (by simp [Bool.not_eq_true _ |>.mp hv])]
  · intro σ s p
    unfold OnState
    by_cases hv : s.IsValid = true
    · by_cases hrel : IsRelevantHeight σ s.m_Height = true
      · by_cases hhas : hasRec σ.m_DB (hashOf s) = true
        · rw [if_neg (by simp [hv]), if_neg (by simp [hrel]), if_pos hhas]
          simp [hv, hrel, hhas]
        · rw [if_neg (by simp [hv]), if_neg (by simp [hrel]),
            if_neg (by simpa using hhas)]
          simp only [Bool.not_eq_true] at hhas
          simp [hv, hrel, hhas]
      · rw [if_neg (by simp [hv]),
          if_pos (by simp [Bool.not_eq_true _ |>.mp hrel])]
        simp only [Bool.not_eq_true] at hrel
        simp [hrel]
    · rw [if_pos (by simp [Bool.not_eq_true _ |>.mp hv])]
      simp only [Bool.not_eq_true] at hv
      simp [hv]
  · intro σ sid b p r hfind hbody
    unfold OnBlock
    by_cases hrel : IsRelevantHeight σ sid.m_Height = true
    · rw [if_neg (by simp [hrel])]
      simp only [hfind]
      by_cases hht : r.m_State.m_Height = sid.m_Height
      · rw [if_neg (by simp [hht]), if_pos hbody]
      · rw [if_pos hht]
    · rw [if_pos (by simp [Bool.not_eq_true _ |>.mp hrel])]
  · intro σ sid b p
    unfold OnBlock
    by_cases hrel : IsRelevantHeight σ sid.m_Height = true
    · rw [if_neg (by simp [hrel])]
      cases hfind : findRec σ.m_DB sid.m_Hash with
      | none => simp [hrel]
      | some r =>
        simp only
        by_cases hht : r.m_State.m_Height = sid.m_Height
        · rw [if_neg (by simp [hht])]
          by_cases hbody : r.m_Body.isSome = true
          · rw [if_pos hbody]
            simp only [Bool.false_eq_true, false_iff, not_and]
            intro hrel2
            rintro ⟨r', hr', hht', hb'⟩
            cases hr'
            rw [hb'] at hbody
            simp at hbody
          · rw [if_neg (by simpa using hbody)]
            simp only [Bool.not_eq_true] at hbody
            have hnone : r.m_Body = none := by
              cases hb2 : r.m_Body with
              | none => rfl
              | some x => rw [hb2] at hbody; simp at hbody
            constructor
            · intro hT
              exact ⟨hrel, r, rfl, hht, hnone⟩
            · intro hT
              rfl
        · rw [if_pos hht]
          simp only [Bool.false_eq_true, false_iff, not_and]
          intro hr
          rintro ⟨r', hr', hht', hb'⟩
          cases hr'
          exact hht hht'
    · rw [if_pos (by simp [Bool.not_eq_true _ |>.mp hrel])]
      simp only [Bool.not_eq_true] at hrel
      simp [hrel]

/- ---------------------------------------------------------------------
Claim C8: failure atomicity of HandleBlock.
--------------------------------------------------------------------- -/

/-- Claim C8 — when a forward `HandleBlock` step fails, the walk reports
the failure with the processor state exactly as it was before the step
(the store transaction is aborted and the in-memory trees still hold the
last committed contents); the failing record is then flagged
non-Functional — leaving every header, body and Active bit and both trees
untouched — and the `TryGoUp` loop retries with the next best tip. -/
theorem C8_failure_atomicity :
    (∀ σ r rest prog, r.m_Body.isSome = true → handleFwd σ r = none →
      forwardPass σ (r :: rest) prog =
        .failed σ (hashOf r.m_State) prog) ∧
    (∀ σ h, (markNonFunctional σ h).m_Utxos = σ.m_Utxos ∧
      (markNonFunctional σ h).m_Kernels = σ.m_Kernels ∧
      ((markNonFunctional σ h).m_DB.map
          (fun r => (r.m_State, r.m_Body, r.m_Active)))
        = σ.m_DB.map (fun r => (r.m_State, r.m_Body, r.m_Active)) ∧
      (∀ r ∈ (markNonFunctional σ h).m_DB, hashOf r.m_State = h →
        r.m_Functional = false)) ∧
    (∀ fuel σ prog best σ' h p, bestReachable σ.m_DB = some best →
      atTip σ best = false → tryGoUpIter σ best = .failedR σ' h p →
      tryGoUpLoop (fuel + 1) σ prog =
        tryGoUpLoop fuel (markNonFunctional σ' h) (prog || p)) := by
  refine ⟨?_, ?_, ?_⟩
  · intro σ r rest prog hb hfail
    have hnone : r.m_Body.isNone = false := by
      cases hb2 : r.m_Body with
      | none => rw [hb2] at hb; simp at hb
      | some x => simp
    unfold forwardPass
    rw [if_neg (by simp [hnone])]
    simp only [hfail]
  · intro σ h
    refine ⟨rfl, rfl, ?_, ?_⟩
    · show ((recomputeReach (clearFunctional σ.m_DB h)).map _) = _
      unfold recomputeReach clearFunctional
      rw [List.map_map, List.map_map]
      apply List.map_congr_left
      intro r hr
      by_cases hh : (hashOf r.m_State == h) = true <;>
        simp only [beq_iff_eq] at hh <;> simp [hh]
    · intro r hr hhash
      show r.m_Functional = false
      simp only [markNonFunctional, recomputeReach, clearFunctional,
        List.map_map, List.mem_map, Function.comp] at hr
      obtain ⟨r0, hr0, hEq⟩ := hr
      by_cases hh : (hashOf r0.m_State == h) = true
      · rw [← hEq]
        simp [hh]
      · exfalso
        have hst : r.m_State = r0.m_State := by
          rw [← hEq]
          simp [hh]
        rw [hst] at hhash
        rw [hhash] at hh
        simp at hh
  · intro fuel σ prog best σ' h p hbest hatip hiter
    show tryGoUpLoop (fuel + 1) σ prog = _
    unfold tryGoUpLoop
    simp only [hbest, hatip, Bool.false_eq_true, if_false, hiter]
    cases fuel with
    | zero => rfl
    | succ f => rfl

/- ---------------------------------------------------------------------
Claim C7: pruning horizons.
--------------------------------------------------------------------- -/

theorem isDescS_refl (st : Store) (s : SystemState) :
    isDescS st s (hashOf s) = true := by
  unfold isDescS
  cases hh : s.m_Height with
  | zero => simp [isDescGo]
  | succ m => simp [isDescGo]

theorem isDescS_of_hash_eq {st : Store} {s : SystemState} {tgt : Nat}
    (h : hashOf s = tgt) : isDescS st s tgt = true := by
  subst h
  exact isDescS_refl st s

theorem isDescS_step {st : Store} {s : SystemState} {p : StateRec}
    (hp : findRec st s.m_Prev = some p)
    (hh : p.m_State.m_Height + 1 = s.m_Height) :
    isDescS st s (hashOf p.m_State) = true := by
  unfold isDescS
  rw [← hh]
  show isDescGo st (p.m_State.m_Height + 1) s (hashOf p.m_State) = true
  unfold isDescGo
  by_cases he : (hashOf s == hashOf p.m_State) = true
  · rw [if_pos he]
  · rw [if_neg he]
    simp only [hp]
    rw [if_pos (by simp [hh])]
    exact isDescS_refl st p.m_State

/-- Transitivity of the descendant walk: if `e` descends to `d` and `d`
descends to the target, then `e` descends to the target. -/
theorem isDescS_trans {st : Store} {tgt : Nat} :
    ∀ (e d : SystemState), isDescS st e (hashOf d) = true →
      isDescS st d tgt = true → isDescS st e tgt = true := by
  suffices H : ∀ (n : Nat) (e d : SystemState), e.m_Height ≤ n →
      isDescS st e (hashOf d) = true → isDescS st d tgt = true →
      isDescS st e tgt = true by
    intro e d h1 h2
    exact H e.m_Height e d (Nat.le_refl _) h1 h2
  intro n
  induction n with
  | zero =>
    intro e d hle h1 h2
    have he0 : e.m_Height = 0 := Nat.le_zero.mp hle
    unfold isDescS at h1
    rw [he0] at h1
    unfold isDescGo at h1
    have : e = d := hashOf_injective (by simpa using h1)
    subst this
    exact h2
  | succ n ih =>
    intro e d hle h1 h2
    cases hhe : e.m_Height with
    | zero =>
      unfold isDescS at h1
      rw [hhe] at h1
      unfold isDescGo at h1
      have : e = d := hashOf_injective (by simpa using h1)
      subst this
      exact h2
    | succ m =>
      unfold isDescS at h1
      rw [hhe] at h1
      unfold isDescGo at h1
      by_cases hhash : (hashOf e == hashOf d) = true
      · have : e = d := hashOf_injective (by simpa using hhash)
        subst this
        exact h2
      · rw [if_neg hhash] at h1
        cases hp : findRec st e.m_Prev with
        | none =>
          simp only [hp] at h1
          exact absurd h1 (by simp)
        | some p =>
          simp only [hp] at h1
          by_cases hg : (p.m_State.m_Height + 1 == e.m_Height) = true
          · rw [if_pos hg] at h1
            have hpm : p.m_State.m_Height = m := by
              simp only [beq_iff_eq, hhe] at hg
              omega
            have hple : p.m_State.m_Height ≤ n := by omega
            have h1' : isDescS st p.m_State (hashOf d) = true := by
              unfold isDescS
              rw [hpm]
              exact h1
            have hres := ih p.m_State d hple h1' h2
            unfold isDescS
            rw [hhe]
            show isDescGo st (m + 1) e tgt = true
            simp only [isDescGo]
            by_cases hht : (hashOf e == tgt) = true
            · rw [if_pos hht]
            · rw [if_neg hht]
              simp only [hp]
              rw [if_pos (by simp only [beq_iff_eq, hhe]; omega)]
              unfold isDescS at hres
              rw [hpm] at hres
              exact hres
          · rw [if_neg hg] at h1
            exact absurd h1 (by simp)

theorem maxStep_acc_le (st : Store) (r : StateRec) :
    ∀ (l : List StateRec) (acc : Nat), acc ≤ l.foldl (maxStep st r) acc := by
  intro l
  induction l with
  | nil => intro acc; exact Nat.le_refl _
  | cons x l ih =>
    intro acc
    simp only [List.foldl_cons]
    refine le_trans ?_ (ih (maxStep st r acc x))
    unfold maxStep
    by_cases hx : isDesc st x r = true
    · rw [if_pos hx]
      exact Nat.le_max_left _ _
    · rw [if_neg hx]

theorem maxStep_ge (st : Store) (r : StateRec) :
    ∀ (l : List StateRec) (acc : Nat), ∀ d ∈ l, isDesc st d r = true →
      d.m_State.m_Height ≤ l.foldl (maxStep st r) acc := by
  intro l
  induction l with
  | nil => intro acc d hd; simp at hd
  | cons x l ih =>
    intro acc d hd hdesc
    simp only [List.foldl_cons]
    rcases List.mem_cons.mp hd with hd | hd
    · subst hd
      refine le_trans ?_ (maxStep_acc_le st r l _)
      unfold maxStep
      rw [if_pos hdesc]
      exact Nat.le_max_right _ _
    · exact ih _ d hd hdesc

theorem maxStep_cases (st : Store) (r : StateRec) :
    ∀ (l : List StateRec) (acc : Nat),
      l.foldl (maxStep st r) acc = acc ∨
      ∃ d ∈ l, isDesc st d r = true ∧
        l.foldl (maxStep st r) acc = d.m_State.m_Height := by
  intro l
  induction l with
  | nil => intro acc; exact Or.inl rfl
  | cons x l ih =>
    intro acc
    simp only [List.foldl_cons]
    by_cases hx : isDesc st x r = true
    · have hstep : maxStep st r acc x = max acc x.m_State.m_Height := by
        unfold maxStep
        rw [if_pos hx]
      rw [hstep]
      rcases ih (max acc x.m_State.m_Height) with h | ⟨d, hd, hdesc, hval⟩
      · rcases Nat.le_total acc x.m_State.m_Height with hle | hle
        · exact Or.inr ⟨x, List.mem_cons_self _ _, hx,
            h.trans (Nat.max_eq_right hle)⟩
        · exact Or.inl (h.trans (Nat.max_eq_left hle))
      · exact Or.inr ⟨d, List.mem_cons_of_mem x hd, hdesc, hval⟩
    · have hstep : maxStep st r acc x = acc := by
        unfold maxStep
        rw [if_neg hx]
      rw [hstep]
      rcases ih acc with h | ⟨d, hd, hdesc, hval⟩
      · exact Or.inl h
      · exact Or.inr ⟨d, List.mem_cons_of_mem x hd, hdesc, hval⟩

theorem subtreeMax_ge {st : Store} {r : StateRec} :
    ∀ d ∈ st, isDesc st d r = true →
      d.m_State.m_Height ≤ subtreeMax st r := by
  intro d hd hdesc
  exact maxStep_ge st r st 0 d hd hdesc

theorem subtreeMax_cases (st : Store) (r : StateRec) :
    subtreeMax st r = 0 ∨
      ∃ d ∈ st, isDesc st d r = true ∧
        subtreeMax st r = d.m_State.m_Height :=
  maxStep_cases st r st 0

/-- The branch tip below a descendant is below the branch tip of the
ancestor. -/
theorem subtreeMax_mono {st : Store} {d r : StateRec}
    (hdesc : isDesc st d r = true) : subtreeMax st d ≤ subtreeMax st r := by
  rcases subtreeMax_cases st d with h | ⟨e, he, hedesc, hval⟩
  · rw [h]; exact Nat.zero_le _
  · rw [hval]
    exact subtreeMax_ge e he (isDescS_trans e.m_State d.m_State hedesc hdesc)

/-- The part of a record that reachability depends on: its header and its
Functional bit. -/
def sfProj (r : StateRec) : SystemState × Bool :=
  (r.m_State, r.m_Functional)

theorem findRec_sf {st st' : Store}
    (h : st.map sfProj = st'.map sfProj) (x : Nat) :
    (findRec st x).map sfProj = (findRec st' x).map sfProj := by
  induction st generalizing st' with
  | nil =>
    cases st' with
    | nil => rfl
    | cons r' st' => simp at h
  | cons r st ih =>
    cases st' with
    | nil => simp at h
    | cons r' st' =>
      simp only [List.map_cons, List.cons.injEq] at h
      obtain ⟨hh, ht⟩ := h
      have hstate : r.m_State = r'.m_State := by
        have := congrArg Prod.fst hh
        simpa [sfProj] using this
      have hfunc : r.m_Functional = r'.m_Functional := by
        have := congrArg Prod.snd hh
        simpa [sfProj] using this
      simp only [findRec, List.find?_cons]
      rw [hstate]
      by_cases hx : (hashOf r'.m_State == x) = true
      · simp [hx, sfProj, hstate, hfunc]
      · simp only [Bool.not_eq_true] at hx
        simp only [hx]
        exact ih ht

theorem reachDGo_sf {st st' : Store}
    (h : st.map sfProj = st'.map sfProj) :
    ∀ (fuel : Nat) (r r' : StateRec), r.m_State = r'.m_State →
      r.m_Functional = r'.m_Functional →
      reachDGo st fuel r = reachDGo st' fuel r' := by
  intro fuel
  induction fuel with
  | zero => intro r r' hs hf; rfl
  | succ fuel ih =>
    intro r r' hs hf
    simp only [reachDGo]
    rw [hs, hf]
    have hfind := findRec_sf h r'.m_State.m_Prev
    cases hp : findRec st r'.m_State.m_Prev with
    | none =>
      rw [hp] at hfind
      cases hp' : findRec st' r'.m_State.m_Prev with
      | none => simp only [hp, hp']
      | some p' => rw [hp'] at hfind; simp at hfind
    | some p =>
      rw [hp] at hfind
      cases hp' : findRec st' r'.m_State.m_Prev with
      | none => rw [hp'] at hfind; simp at hfind
      | some p' =>
        rw [hp'] at hfind
        simp only [Option.map_some', Option.some.injEq, sfProj,
          Prod.mk.injEq] at hfind
        obtain ⟨hps, hpf⟩ := hfind
        simp only [hp, hp']
        rw [hps, ih p p' hps hpf]

theorem reachD_sf {st st' : Store}
    (h : st.map sfProj = st'.map sfProj) {r r' : StateRec}
    (hs : r.m_State = r'.m_State) (hf : r.m_Functional = r'.m_Functional) :
    reachD st r = reachD st' r' := by
  unfold reachD
  rw [hs]
  exact reachDGo_sf h r'.m_State.m_Height r r' hs hf

theorem sf_map_pres {f : StateRec → StateRec}
    (hf : ∀ r, (f r).m_State = r.m_State ∧
      (f r).m_Functional = r.m_Functional) (st : Store) :
    (st.map f).map sfProj = st.map sfProj := by
  rw [List.map_map]
  apply List.map_congr_left
  intro r hr
  simp [sfProj, (hf r).1, (hf r).2]

theorem sf_recomputeReach (st : Store) :
    (recomputeReach st).map sfProj = st.map sfProj :=
  @sf_map_pres (fun r => { r with m_Reachable := reachD st r })
    (fun _ => ⟨rfl, rfl⟩) st

theorem recomputeReach_fixpoint {st : Store}
    (h : ∀ r ∈ st, r.m_Reachable = reachD st r) : recomputeReach st = st := by
  unfold recomputeReach
  conv_rhs => rw [← List.map_id st]
  apply List.map_congr_left
  intro r hr
  rw [← h r hr]
  rfl

theorem recomputeReach_reach (st : Store) :
    ∀ r ∈ recomputeReach st, r.m_Reachable = reachD (recomputeReach st) r := by
  intro r hr
  simp only [recomputeReach, List.mem_map] at hr
  obtain ⟨r0, hr0, hEq⟩ := hr
  subst hEq
  show reachD st r0 = _
  exact reachD_sf (sf_recomputeReach st).symm rfl rfl

theorem recomputeReach_idem (st : Store) :
    recomputeReach (recomputeReach st) = recomputeReach st :=
  recomputeReach_fixpoint (recomputeReach_reach st)

/-- No two records share a content-hash (well-formedness of the store). -/
def hashNodup (st : Store) : Prop :=
  (st.map (fun r => hashOf r.m_State)).Nodup

theorem mem_eq_of_hashNodup {st : Store} (h : hashNodup st)
    {r1 r2 : StateRec} (h1 : r1 ∈ st) (h2 : r2 ∈ st)
    (hh : hashOf r1.m_State = hashOf r2.m_State) : r1 = r2 := by
  induction st with
  | nil => simp at h1
  | cons x st ih =>
    unfold hashNodup at h
    simp only [List.map_cons, List.nodup_cons] at h
    obtain ⟨hx, hst⟩ := h
    rcases List.mem_cons.mp h1 with he1 | hm1 <;>
      rcases List.mem_cons.mp h2 with he2 | hm2
    · rw [he1, he2]
    · subst he1
      exfalso
      apply hx
      rw [hh]
      exact List.mem_map_of_mem _ hm2
    · subst he2
      exfalso
      apply hx
      rw [← hh]
      exact List.mem_map_of_mem _ hm1
    · exact ih hst hm1 hm2

theorem findRec_filter_map {st : Store} {keep : StateRec → Bool}
    {f : StateRec → StateRec} (hf : ∀ r, (f r).m_State = r.m_State)
    {h : Nat} {p : StateRec} (hfind : findRec st h = some p)
    (hkeep : keep p = true) :
    findRec ((st.filter keep).map f) h = some (f p) := by
  induction st with
  | nil => simp [findRec] at hfind
  | cons r st ih =>
    simp only [findRec, List.find?_cons] at hfind
    by_cases hx : (hashOf r.m_State == h) = true
    · simp only [hx, if_true] at hfind
      cases hfind
      rw [List.filter_cons_of_pos hkeep]
      simp only [List.map_cons, findRec, List.find?_cons, hf, hx]
    · simp only [Bool.not_eq_true] at hx
      simp only [hx, Bool.false_eq_true, if_false] at hfind
      by_cases hk : keep r = true
      · rw [List.filter_cons_of_pos hk]
        simp only [List.map_cons, findRec, List.find?_cons, hf, hx]
        exact ih hfind
      · rw [List.filter_cons_of_neg (by simpa using hk)]
        exact ih hfind

/-- Transfer of a descendant walk into the pruned store: if every record
on the walk satisfies an invariant `Q` that forces it to be kept, the walk
still succeeds in the filtered (and re-flagged) store. -/
theorem isDescGo_sub {st : Store} {keep : StateRec → Bool}
    {f : StateRec → StateRec} (hf : ∀ r, (f r).m_State = r.m_State)
    (Q : SystemState → Prop)
    (hQstep : ∀ (s : SystemState) (p : StateRec), Q s →
      findRec st s.m_Prev = some p → p.m_State.m_Height + 1 = s.m_Height →
      Q p.m_State ∧ keep p = true) :
    ∀ (fuel : Nat) (s : SystemState) (tgt : Nat), Q s →
      isDescGo st fuel s tgt = true →
      isDescGo ((st.filter keep).map f) fuel s tgt = true := by
  intro fuel
  induction fuel with
  | zero => intro s tgt hQ h; exact h
  | succ fuel ih =>
    intro s tgt hQ h
    simp only [isDescGo] at h ⊢
    by_cases hh : (hashOf s == tgt) = true
    · rw [if_pos hh]
    · rw [if_neg hh] at h ⊢
      cases hp : findRec st s.m_Prev with
      | none =>
        simp only [hp] at h
        exact absurd h (by simp)
      | some p =>
        simp only [hp] at h
        by_cases hg : (p.m_State.m_Height + 1 == s.m_Height) = true
        · rw [if_pos hg] at h
          have hgP : p.m_State.m_Height + 1 = s.m_Height := by
            simpa using hg
          obtain ⟨hQp, hkeepp⟩ := hQstep s p hQ hp hgP
          simp only [findRec_filter_map hf hp hkeepp, hf]
          rw [if_pos hg]
          exact ih p.m_State tgt hQp h
        · rw [if_neg hg] at h
          exact absurd h (by simp)

theorem PruneOld_eq {σ : NodeProcessor} {hTip hb he : Nat}
    (hhz : σ.m_Horizon = ⟨some hb, some he⟩) :
    PruneOld σ hTip =
      { σ with
        m_DB := (recomputeReach (σ.m_DB.filter
          (pruneKeep σ.m_DB (hTip - hb)))).map (pruneErase (hTip - he)),
        m_FossilHeight := max σ.m_FossilHeight (hTip - he) } := by
  unfold PruneOld
  rw [hhz]

theorem pruneErase_state (c : Nat) (x : StateRec) :
    (pruneErase c x).m_State = x.m_State ∧
    (pruneErase c x).m_Active = x.m_Active ∧
    (pruneErase c x).m_Functional = x.m_Functional ∧
    (pruneErase c x).m_Reachable = x.m_Reachable := by
  unfold pruneErase
  by_cases hc : (x.m_Active && decide (x.m_State.m_Height ≤ c)) = true
  · rw [if_pos hc]
    exact ⟨rfl, rfl, rfl, rfl⟩
  · rw [if_neg hc]
    exact ⟨rfl, rfl, rfl, rfl⟩

theorem pruneErase_idem (c : Nat) (x : StateRec) :
    pruneErase c (pruneErase c x) = pruneErase c x := by
  unfold pruneErase
  by_cases hc : (x.m_Active && decide (x.m_State.m_Height ≤ c)) = true
  · rw [if_pos hc]
    rw [if_pos (by simpa using hc)]
  · rw [if_neg hc, if_neg hc]

theorem prunedStore_mem {σ : NodeProcessor} {hTip hb he : Nat}
    (hhz : σ.m_Horizon = ⟨some hb, some he⟩) :
    ∀ r ∈ (PruneOld σ hTip).m_DB,
      ∃ r0, r0 ∈ σ.m_DB ∧ pruneKeep σ.m_DB (hTip - hb) r0 = true ∧
        r = pruneErase (hTip - he)
          { r0 with m_Reachable :=
            (reachD (σ.m_DB.filter (pruneKeep σ.m_DB (hTip - hb))) r0) } := by
  intro r hr
  rw [PruneOld_eq hhz] at hr
  simp only [recomputeReach, List.map_map, List.mem_map, List.mem_filter,
    Function.comp] at hr
  obtain ⟨r0, ⟨hr0, hkeep⟩, hEq⟩ := hr
  exact ⟨r0, hr0, hkeep, hEq.symm⟩

theorem prunedStore_mem_of {σ : NodeProcessor} {hTip hb he : Nat}
    (hhz : σ.m_Horizon = ⟨some hb, some he⟩) {r0 : StateRec}
    (hr0 : r0 ∈ σ.m_DB) (hkeep : pruneKeep σ.m_DB (hTip - hb) r0 = true) :
    pruneErase (hTip - he)
        { r0 with m_Reachable :=
          (reachD (σ.m_DB.filter (pruneKeep σ.m_DB (hTip - hb))) r0) }
      ∈ (PruneOld σ hTip).m_DB := by
  rw [PruneOld_eq hhz]
  simp only [recomputeReach, List.map_map, List.mem_map, List.mem_filter,
    Function.comp]
  exact ⟨r0, ⟨hr0, hkeep⟩, rfl⟩

/-- Claim C7 — after `PruneOld` runs at tip height `H` with branching
horizon `H_b` and Schwarzschild horizon `H_e`: every Active record with
height below `H − H_e` has no stored body (and hence no rollback data);
no record of a deleted non-active branch, nor any descendant of it,
remains in the store; and a second fossilization/pruning pass at the same
tip is the identity.  The hypothesis states the store invariant that the
Active records are ancestor-closed. -/
theorem C7_prune_old (σ : NodeProcessor) (hTip hb he : Nat)
    (hhz : σ.m_Horizon = ⟨some hb, some he⟩)
    (hanc : ∀ d r, d ∈ σ.m_DB → r ∈ σ.m_DB → d.m_Active = true →
      isDesc σ.m_DB d r = true → r.m_Active = true) :
    (∀ r ∈ (PruneOld σ hTip).m_DB, r.m_Active = true →
      r.m_State.m_Height < hTip - he → r.m_Body = none) ∧
    (∀ r ∈ σ.m_DB,
      (∀ r2 ∈ (PruneOld σ hTip).m_DB,
        hashOf r2.m_State ≠ hashOf r.m_State) →
      ∀ d ∈ (PruneOld σ hTip).m_DB, isDesc σ.m_DB d r = false) ∧
    PruneOld (PruneOld σ hTip) hTip = PruneOld σ hTip := by
  refine ⟨?_, ?_, ?_⟩
  · -- (a) fossilized Active records have no body
    intro r hr hact hlt
    obtain ⟨r0, hr0, hkeep, hEq⟩ := prunedStore_mem hhz r hr
    have hact0 : r0.m_Active = true := by
      rw [hEq] at hact
      rw [← hact]
      exact ((pruneErase_state _ _).2.1).symm ▸ rfl
    have hht0 : r0.m_State.m_Height < hTip - he := by
      rw [hEq] at hlt
      rw [(pruneErase_state _ _).1] at hlt
      exact hlt
    rw [hEq]
    unfold pruneErase
    rw [if_pos (by simp [hact0]; omega)]
  · -- (b) no descendant of a deleted branch remains
    intro r hr habsent d hd
    by_contra hdesc
    rw [Bool.not_eq_false] at hdesc
    have hkeepr : pruneKeep σ.m_DB (hTip - hb) r = false := by
      by_contra hkr
      rw [Bool.not_eq_false] at hkr
      have hin := prunedStore_mem_of hhz hr hkr
      apply habsent _ hin
      rw [(pruneErase_state _ _).1]
    have hparts := hkeepr
    unfold pruneKeep at hparts
    simp only [Bool.or_eq_false_iff, decide_eq_false_iff_not, not_lt]
      at hparts
    obtain ⟨hrna, hrsub⟩ := hparts
    obtain ⟨d0, hd0, hkeepd, hdEq⟩ := prunedStore_mem hhz d hd
    have hdesc0 : isDesc σ.m_DB d0 r = true := by
      unfold isDesc at hdesc ⊢
      rw [hdEq, (pruneErase_state _ _).1] at hdesc
      exact hdesc
    unfold pruneKeep at hkeepd
    rcases Bool.or_eq_true_iff.mp hkeepd with hda | hds
    · have := hanc d0 r hd0 hr hda hdesc0
      rw [this] at hrna
      exact absurd hrna (by simp)
    · have hmono := subtreeMax_mono hdesc0
      have := decide_eq_true_eq.mp hds
      omega
  · -- (c) a second pass at the same tip is the identity
    have hdb : (PruneOld σ hTip).m_DB =
        (recomputeReach (σ.m_DB.filter (pruneKeep σ.m_DB (hTip - hb)))).map
          (pruneErase (hTip - he)) := by
      rw [PruneOld_eq hhz]
    have hfossil : (PruneOld σ hTip).m_FossilHeight =
        max σ.m_FossilHeight (hTip - he) := by
      rw [PruneOld_eq hhz]
    have hhz' : (PruneOld σ hTip).m_Horizon = ⟨some hb, some he⟩ := by
      rw [PruneOld_eq hhz] at *
      exact hhz
    -- (c1): the branch filter of the second pass keeps everything
    have hc1 : ∀ r ∈ (PruneOld σ hTip).m_DB,
        pruneKeep (PruneOld σ hTip).m_DB (hTip - hb) r = true := by
      intro r hr
      obtain ⟨r0, hr0, hkeep, hEq⟩ := prunedStore_mem hhz r hr
      unfold pruneKeep at hkeep ⊢
      rcases Bool.or_eq_true_iff.mp hkeep with ha | hs
      · apply Bool.or_eq_true_iff.mpr
        left
        rw [hEq, (pruneErase_state _ _).2.1]
        exact ha
      · apply Bool.or_eq_true_iff.mpr
        right
        have hcut := decide_eq_true_eq.mp hs
        rcases subtreeMax_cases σ.m_DB r0 with h0 | ⟨e, he', hedesc, heval⟩
        · omega
        · have hecut : hTip - hb < e.m_State.m_Height := by omega
          have hkeepe : pruneKeep σ.m_DB (hTip - hb) e = true := by
            unfold pruneKeep
            apply Bool.or_eq_true_iff.mpr
            right
            apply decide_eq_true
            have := subtreeMax_ge e he'
              (isDescS_refl σ.m_DB e.m_State)
            omega
          have hQstep : ∀ (s : SystemState) (p : StateRec),
              (∃ r' ∈ σ.m_DB, r'.m_State = s ∧
                pruneKeep σ.m_DB (hTip - hb) r' = true) →
              findRec σ.m_DB s.m_Prev = some p →
              p.m_State.m_Height + 1 = s.m_Height →
              (∃ r' ∈ σ.m_DB, r'.m_State = p.m_State ∧
                pruneKeep σ.m_DB (hTip - hb) r' = true) ∧
              pruneKeep σ.m_DB (hTip - hb) p = true := by
            intro s p ⟨r', hr', hrs, hkr'⟩ hfp hgp
            have hpmem := (findRec_some_mem hfp).1
            have hstep : isDesc σ.m_DB r' p = true := by
              unfold isDesc
              rw [hrs]
              exact isDescS_step hfp hgp
            have hkp : pruneKeep σ.m_DB (hTip - hb) p = true := by
              unfold pruneKeep at hkr' ⊢
              rcases Bool.or_eq_true_iff.mp hkr' with ha' | hs'
              · apply Bool.or_eq_true_iff.mpr
                left
                exact hanc r' p hr' hpmem ha' hstep
              · apply Bool.or_eq_true_iff.mpr
                right
                apply decide_eq_true
                have := subtreeMax_mono hstep
                have := decide_eq_true_eq.mp hs'
                omega
            exact ⟨⟨p, hpmem, rfl, hkp⟩, hkp⟩
          have hwalk0 : isDescS σ.m_DB e.m_State (hashOf r0.m_State)
              = true := hedesc
          have hdb2 : (PruneOld σ hTip).m_DB =
              (σ.m_DB.filter (pruneKeep σ.m_DB (hTip - hb))).map
                (fun x => pruneErase (hTip - he)
                  { x with m_Reachable :=
                    (reachD (σ.m_DB.filter (pruneKeep σ.m_DB (hTip - hb)))
                      x) }) := by
            rw [hdb]
            unfold recomputeReach
            rw [List.map_map]
            rfl
          have hf : ∀ x : StateRec,
              ((fun x => pruneErase (hTip - he)
                { x with m_Reachable :=
                  (reachD (σ.m_DB.filter (pruneKeep σ.m_DB (hTip - hb)))
                    x) }) x).m_State = x.m_State :=
            fun x => (pruneErase_state _ _).1
          have hQe : ∃ r' ∈ σ.m_DB, r'.m_State = e.m_State ∧
              pruneKeep σ.m_DB (hTip - hb) r' = true :=
            ⟨e, he', rfl, hkeepe⟩
          have hwalk2 := isDescGo_sub hf
            (fun m => ∃ r' ∈ σ.m_DB, r'.m_State = m ∧
              pruneKeep σ.m_DB (hTip - hb) r' = true)
            hQstep e.m_State.m_Height e.m_State (hashOf r0.m_State)
            hQe hwalk0
          have hFe_mem := prunedStore_mem_of hhz he' hkeepe
          have hdesc2 : isDesc (PruneOld σ hTip).m_DB
              (pruneErase (hTip - he)
                { e with m_Reachable :=
                  (reachD (σ.m_DB.filter (pruneKeep σ.m_DB (hTip - hb)))
                    e) }) r = true := by
            unfold isDesc isDescS
            rw [(pruneErase_state _ _).1]
            show isDescGo _ e.m_State.m_Height e.m_State _ = true
            have hrst : r.m_State = r0.m_State := by
              rw [hEq, (pruneErase_state _ _).1]
            rw [hrst, hdb2]
            exact hwalk2
          have hle := subtreeMax_ge _ hFe_mem hdesc2
          rw [(pruneErase_state _ _).1] at hle
          have hle2 : e.m_State.m_Height ≤
              subtreeMax (PruneOld σ hTip).m_DB r := hle
          apply decide_eq_true
          show hTip - hb < subtreeMax (PruneOld σ hTip).m_DB r
          omega
    -- (c2): the Reachable flags of the pruned store are already normal
    have hre : recomputeReach (PruneOld σ hTip).m_DB
        = (PruneOld σ hTip).m_DB := by
      apply recomputeReach_fixpoint
      intro r hr
      obtain ⟨r0, hr0, hkeep, hEq⟩ := prunedStore_mem hhz r hr
      have hy : ({ r0 with m_Reachable :=
          (reachD (σ.m_DB.filter (pruneKeep σ.m_DB (hTip - hb))) r0) }
            : StateRec)
          ∈ recomputeReach (σ.m_DB.filter (pruneKeep σ.m_DB (hTip - hb)))
          := by
        unfold recomputeReach
        exact List.mem_map_of_mem _ (List.mem_filter.mpr ⟨hr0, hkeep⟩)
      have hflag := recomputeReach_reach
        (σ.m_DB.filter (pruneKeep σ.m_DB (hTip - hb))) _ hy
      have hrr : r.m_Reachable =
          reachD (recomputeReach (σ.m_DB.filter
            (pruneKeep σ.m_DB (hTip - hb))))
            { r0 with m_Reachable :=
              (reachD (σ.m_DB.filter (pruneKeep σ.m_DB (hTip - hb))) r0) }
          := by
        rw [hEq, (pruneErase_state _ _).2.2.2]
        exact hflag
      rw [hrr]
      apply reachD_sf
      · rw [hdb]
        exact (sf_map_pres (fun x => ⟨(pruneErase_state _ _).1,
          (pruneErase_state _ _).2.2.1⟩) _).symm
      · rw [hEq, (pruneErase_state _ _).1]
      · rw [hEq, (pruneErase_state _ _).2.2.1]
    -- (c3): erasing bodies a second time changes nothing
    have hmap : (PruneOld σ hTip).m_DB.map (pruneErase (hTip - he))
        = (PruneOld σ hTip).m_DB := by
      rw [hdb, List.map_map]
      apply List.map_congr_left
      intro x hx
      exact pruneErase_idem _ _
    -- assemble
    rw [PruneOld_eq hhz']
    rw [List.filter_eq_self.mpr hc1, hre, hmap]
    have hge : hTip - he ≤ (PruneOld σ hTip).m_FossilHeight := by
      rw [hfossil]
      exact Nat.le_max_right _ _
    rw [Nat.max_eq_left hge]

/- ---------------------------------------------------------------------
Claim C4: the flag invariants, part 1 — the store well-formedness
predicate and its basic consequences.
--------------------------------------------------------------------- -/

theorem findRec_of_mem_nodup {st : Store} (hnd : hashNodup st)
    {r : StateRec} (hr : r ∈ st) :
    findRec st (hashOf r.m_State) = some r := by
  induction st with
  | nil => simp at hr
  | cons x st ih =>
    unfold hashNodup at hnd
    simp only [List.map_cons, List.nodup_cons] at hnd
    obtain ⟨hx, hst⟩ := hnd
    rcases List.mem_cons.mp hr with he | hm
    · subst he
      simp [findRec]
    · by_cases hh : (hashOf x.m_State == hashOf r.m_State) = true
      · exfalso
        apply hx
        rw [beq_iff_eq] at hh
        rw [hh]
        exact List.mem_map_of_mem _ hm
      · have hh' : (hashOf x.m_State == hashOf r.m_State) = false := by
          simpa using hh
        simp only [findRec, List.find?_cons, hh']
        exact ih hst hm

theorem reachD_functional {st : Store} {r : StateRec}
    (h : reachD st r = true) : r.m_Functional = true := by
  unfold reachD at h
  cases hh : r.m_State.m_Height with
  | zero => rw [hh] at h; simp [reachDGo] at h
  | succ n =>
    rw [hh] at h
    simp only [reachDGo, Bool.and_eq_true] at h
    exact h.1

theorem reachD_of_height1 {st : Store} {r : StateRec}
    (hh : r.m_State.m_Height = 1) (hf : r.m_Functional = true) :
    reachD st r = true := by
  unfold reachD
  rw [hh]
  simp [reachDGo, hf, hh]

theorem reachD_of_parent {st : Store} {r p : StateRec}
    (hf : r.m_Functional = true)
    (hfind : findRec st r.m_State.m_Prev = some p)
    (hh : p.m_State.m_Height + 1 = r.m_State.m_Height)
    (hp : reachD st p = true) : reachD st r = true := by
  unfold reachD at hp ⊢
  rw [← hh]
  simp only [reachDGo, hf, hfind]
  simp [hh, hp]

/-- The store well-formedness invariant maintained by every processor
step: no two records share a header hash; the stored Reachable flag of
every record equals the derived reachability; at most one record is
Active per height; every record's height is at least 1; and the Active
records form one Functional parent-linked chain covering the heights from
1 up to the active tip. -/
def wfStore (st : Store) : Prop :=
  hashNodup st ∧
  (∀ r ∈ st, r.m_Reachable = reachD st r) ∧
  (∀ r1 ∈ st, ∀ r2 ∈ st, r1.m_Active = true → r2.m_Active = true →
    r1.m_State.m_Height = r2.m_State.m_Height → r1 = r2) ∧
  (∀ r ∈ st, 1 ≤ r.m_State.m_Height) ∧
  (∀ i, i < activeTipHeight st →
    ∃ r, activeAt st (i + 1) = some r ∧ r.m_Functional = true ∧
      (i = 0 ∨ ∃ p, activeAt st i = some p ∧
        r.m_State.m_Prev = hashOf p.m_State))

/-- A processor is well-formed when its store is. -/
def wf (σ : NodeProcessor) : Prop := wfStore σ.m_DB

theorem wf_init (hz : Horizon) : wf (NodeProcessor.init hz) := by
  refine ⟨List.nodup_nil, ?_, ?_, ?_, ?_⟩
  · intro r hr; simp [NodeProcessor.init] at hr
  · intro r hr; simp [NodeProcessor.init] at hr
  · intro r hr; simp [NodeProcessor.init] at hr
  · intro i hi
    simp [NodeProcessor.init, activeTipHeight] at hi

theorem wfStore_active_reachD {st : Store} (hwf : wfStore st) :
    ∀ r ∈ st, r.m_Active = true → reachD st r = true := by
  obtain ⟨hnd, _, huniq, hht, hlink⟩ := hwf
  have main : ∀ i, i < activeTipHeight st →
      ∀ r, activeAt st (i + 1) = some r → reachD st r = true := by
    intro i
    induction i with
    | zero =>
      intro hi r hr
      obtain ⟨r', hr', hf', _⟩ := hlink 0 hi
      rw [hr] at hr'
      injection hr' with hrr
      subst hrr
      obtain ⟨hmem, hact, hh⟩ := activeAt_some hr
      exact reachD_of_height1 (by omega) hf'
    | succ i ih =>
      intro hi r hr
      obtain ⟨r', hr', hf', hlk⟩ := hlink (i + 1) hi
      rw [hr] at hr'
      injection hr' with hrr
      subst hrr
      rcases hlk with h0 | ⟨p, hp, hprev⟩
      · omega
      · have hpre : reachD st p = true := ih (by omega) p hp
        obtain ⟨hpm, hpa, hph⟩ := activeAt_some hp
        obtain ⟨hm, ha, hh⟩ := activeAt_some hr
        have hfind : findRec st r.m_State.m_Prev = some p := by
          rw [hprev]
          exact findRec_of_mem_nodup hnd hpm
        exact reachD_of_parent hf' hfind (by omega) hpre
  intro r hr hact
  have h1 : 1 ≤ r.m_State.m_Height := hht r hr
  have h2 : r.m_State.m_Height ≤ activeTipHeight st :=
    activeTipHeight_ge st r hr hact
  have hi : r.m_State.m_Height - 1 < activeTipHeight st := by omega
  obtain ⟨r', hr', -, -⟩ := hlink _ hi
  obtain ⟨hm', ha', hh'⟩ := activeAt_some hr'
  have hht2 : r.m_State.m_Height - 1 + 1 = r.m_State.m_Height := by omega
  have heq : r' = r := huniq r' hm' r hr ha' hact (hh'.trans hht2)
  subst heq
  exact main _ hi r' hr'

/- ---------------------------------------------------------------------
Claim C4, part 2 — transfer lemmas for the active-chain views under
store maps, filters and appends.
--------------------------------------------------------------------- -/

theorem find?_congr_mem {α : Type} {p q : α → Bool} :
    ∀ {l : List α}, (∀ x ∈ l, p x = q x) → l.find? p = l.find? q := by
  intro l
  induction l with
  | nil => intro _; rfl
  | cons a l ih =>
    intro h
    have ha := h a (List.mem_cons_self _ _)
    by_cases hpa : p a = true
    · simp [List.find?_cons, hpa, ha ▸ hpa]
    · have hpa' : p a = false := by simpa using hpa
      have hqa' : q a = false := ha ▸ hpa'
      simp only [List.find?_cons, hpa', hqa']
      exact ih (fun x hx => h x (List.mem_cons_of_mem _ hx))

theorem find?_unique {α : Type} {p : α → Bool} {l : List α} {y : α}
    (hy : y ∈ l) (hp : p y = true)
    (huniq : ∀ x ∈ l, p x = true → x = y) : l.find? p = some y := by
  induction l with
  | nil => simp at hy
  | cons a l ih =>
    by_cases ha : p a = true
    · have : a = y := huniq a (List.mem_cons_self a l) ha
      subst this
      simp [List.find?_cons, ha]
    · have ha' : p a = false := by simpa using ha
      simp only [List.find?_cons, ha']
      rcases List.mem_cons.mp hy with he | hm
      · subst he; exact absurd hp ha
      · exact ih hm (fun x hx hpx => huniq x (List.mem_cons_of_mem a hx) hpx)

theorem activeAt_map_pres {f : StateRec → StateRec}
    (hf : ∀ r, (f r).m_State = r.m_State ∧ (f r).m_Active = r.m_Active)
    (st : Store) (h : Nat) :
    activeAt (st.map f) h = (activeAt st h).map f := by
  unfold activeAt
  rw [List.find?_map]
  congr 1
  apply find?_congr_mem
  intro x _
  show ((f x).m_Active && ((f x).m_State.m_Height == h)) = _
  rw [(hf x).1, (hf x).2]

theorem activeTipHeight_map_pres {f : StateRec → StateRec}
    (hf : ∀ r, (f r).m_State = r.m_State ∧ (f r).m_Active = r.m_Active)
    (st : Store) : activeTipHeight (st.map f) = activeTipHeight st := by
  unfold activeTipHeight
  suffices H : ∀ (l : Store) (acc : Nat),
      (l.map f).foldl activeHStep acc = l.foldl activeHStep acc by
    exact H st 0
  intro l
  induction l with
  | nil => intro acc; rfl
  | cons x l ih =>
    intro acc
    simp only [List.map_cons, List.foldl_cons]
    have hx : activeHStep acc (f x) = activeHStep acc x := by
      unfold activeHStep
      rw [(hf x).1, (hf x).2]
    rw [hx, ih]

theorem hashNodup_map_pres {f : StateRec → StateRec}
    (hf : ∀ r, (f r).m_State = r.m_State) {st : Store}
    (h : hashNodup st) : hashNodup (st.map f) := by
  unfold hashNodup at h ⊢
  rw [List.map_map]
  have hc : ((fun r => hashOf r.m_State) ∘ f) =
      (fun r => hashOf r.m_State) := by
    funext r
    simp [Function.comp, hf r]
  rw [hc]
  exact h

/-- A pointwise map that leaves the header, the Functional flag, the
Active flag and the Reachable flag alone preserves the whole store
invariant (only the body may change). -/
theorem wfStore_map_pres {f : StateRec → StateRec}
    (hf : ∀ r, (f r).m_State = r.m_State ∧
      (f r).m_Functional = r.m_Functional ∧
      (f r).m_Active = r.m_Active ∧ (f r).m_Reachable = r.m_Reachable)
    {st : Store} (hwf : wfStore st) : wfStore (st.map f) := by
  obtain ⟨hnd, hflag, huniq, hht, hlink⟩ := hwf
  have hsf : (st.map f).map sfProj = st.map sfProj :=
    sf_map_pres (fun r => ⟨(hf r).1, (hf r).2.1⟩) st
  have hA : ∀ r, (f r).m_State = r.m_State ∧ (f r).m_Active = r.m_Active :=
    fun r => ⟨(hf r).1, (hf r).2.2.1⟩
  refine ⟨hashNodup_map_pres (fun r => (hf r).1) hnd, ?_, ?_, ?_, ?_⟩
  · intro r hr
    obtain ⟨x, hx, hEq⟩ := List.mem_map.mp hr
    subst hEq
    rw [(hf x).2.2.2, hflag x hx]
    exact reachD_sf hsf.symm ((hf x).1).symm ((hf x).2.1).symm
  · intro r1 h1 r2 h2 ha1 ha2 hh
    obtain ⟨x1, hx1, hE1⟩ := List.mem_map.mp h1
    obtain ⟨x2, hx2, hE2⟩ := List.mem_map.mp h2
    subst hE1
    subst hE2
    have e1 : x1.m_Active = true := by rw [← (hf x1).2.2.1]; exact ha1
    have e2 : x2.m_Active = true := by rw [← (hf x2).2.2.1]; exact ha2
    have eh : x1.m_State.m_Height = x2.m_State.m_Height := by
      rw [← (hf x1).1, ← (hf x2).1]
      exact hh
    rw [huniq x1 hx1 x2 hx2 e1 e2 eh]
  · intro r hr
    obtain ⟨x, hx, hEq⟩ := List.mem_map.mp hr
    subst hEq
    rw [(hf x).1]
    exact hht x hx
  · intro i hi
    rw [activeTipHeight_map_pres hA] at hi
    obtain ⟨r, hr, hfn, hlk⟩ := hlink i hi
    refine ⟨f r, ?_, ?_, ?_⟩
    · rw [activeAt_map_pres hA, hr]
      rfl
    · rw [(hf r).2.1]
      exact hfn
    · rcases hlk with h0 | ⟨p, hp, hprev⟩
      · exact Or.inl h0
      · refine Or.inr ⟨f p, ?_, ?_⟩
        · rw [activeAt_map_pres hA, hp]
          rfl
        · rw [(hf r).1, (hf p).1]
          exact hprev

theorem activeAt_append_inactive {st : Store} {x : StateRec}
    (hx : x.m_Active = false) (h : Nat) :
    activeAt (st ++ [x]) h = activeAt st h := by
  unfold activeAt
  induction st with
  | nil => simp [List.find?_cons, hx]
  | cons a l ih =>
    simp only [List.cons_append, List.find?_cons]
    by_cases ha : (a.m_Active && (a.m_State.m_Height == h)) = true
    · simp [ha]
    · have ha' : (a.m_Active && (a.m_State.m_Height == h)) = false := by
        simpa using ha
      simp only [ha']
      exact ih

theorem activeTipHeight_append_inactive {st : Store} {x : StateRec}
    (hx : x.m_Active = false) :
    activeTipHeight (st ++ [x]) = activeTipHeight st := by
  unfold activeTipHeight
  rw [List.foldl_append]
  simp [activeHStep, hx]

theorem findRec_none_hash {st : Store} {h : Nat}
    (hfind : findRec st h = none) : ∀ r ∈ st, hashOf r.m_State ≠ h := by
  intro r hr
  unfold findRec at hfind
  have := List.find?_eq_none.mp hfind r hr
  simpa using this

theorem hashNodup_append {st : Store} {x : StateRec} (hnd : hashNodup st)
    (hnew : ∀ r ∈ st, hashOf r.m_State ≠ hashOf x.m_State) :
    hashNodup (st ++ [x]) := by
  unfold hashNodup at hnd ⊢
  rw [List.map_append]
  rw [List.nodup_append]
  refine ⟨hnd, List.nodup_singleton _, ?_⟩
  intro a ha hb
  simp only [List.map_cons, List.map_nil, List.mem_singleton] at hb
  obtain ⟨r, hr, hEq⟩ := List.mem_map.mp ha
  subst hEq
  exact hnew r hr hb

/- ---------------------------------------------------------------------
Claim C4, part 3 — preservation of the invariant by the Reachable-flag
recomputation and by `PruneOld`.
--------------------------------------------------------------------- -/

/-- Recomputing the Reachable flags restores the full invariant from its
other four clauses. -/
theorem wfStore_recompute {st : Store}
    (hnd : hashNodup st)
    (huniq : ∀ r1 ∈ st, ∀ r2 ∈ st, r1.m_Active = true → r2.m_Active = true →
      r1.m_State.m_Height = r2.m_State.m_Height → r1 = r2)
    (hht : ∀ r ∈ st, 1 ≤ r.m_State.m_Height)
    (hlink : ∀ i, i < activeTipHeight st →
      ∃ r, activeAt st (i + 1) = some r ∧ r.m_Functional = true ∧
        (i = 0 ∨ ∃ p, activeAt st i = some p ∧
          r.m_State.m_Prev = hashOf p.m_State)) :
    wfStore (recomputeReach st) := by
  have hA : ∀ r : StateRec,
      ({ r with m_Reachable := reachD st r } : StateRec).m_State = r.m_State ∧
      ({ r with m_Reachable := reachD st r } : StateRec).m_Active =
        r.m_Active :=
    fun r => ⟨rfl, rfl⟩
  refine ⟨?_, recomputeReach_reach st, ?_, ?_, ?_⟩
  · unfold recomputeReach
    exact @hashNodup_map_pres
      (fun r => { r with m_Reachable := reachD st r })
      (fun r => rfl) st hnd
  · intro r1 h1 r2 h2 ha1 ha2 hh
    unfold recomputeReach at h1 h2
    obtain ⟨x1, hx1, hE1⟩ := List.mem_map.mp h1
    obtain ⟨x2, hx2, hE2⟩ := List.mem_map.mp h2
    subst hE1
    subst hE2
    rw [huniq x1 hx1 x2 hx2 ha1 ha2 hh]
  · intro r hr
    unfold recomputeReach at hr
    obtain ⟨x, hx, hEq⟩ := List.mem_map.mp hr
    subst hEq
    exact hht x hx
  · intro i hi
    unfold recomputeReach at hi ⊢
    rw [activeTipHeight_map_pres hA] at hi
    obtain ⟨r, hr, hfn, hlk⟩ := hlink i hi
    refine ⟨{ r with m_Reachable := reachD st r }, ?_, hfn, ?_⟩
    · rw [activeAt_map_pres hA, hr]
      rfl
    · rcases hlk with h0 | ⟨p, hp, hprev⟩
      · exact Or.inl h0
      · refine Or.inr ⟨{ p with m_Reachable := reachD st p }, ?_, hprev⟩
        rw [activeAt_map_pres hA, hp]
        rfl

theorem activeAt_filter_keep {st : Store} {keep : StateRec → Bool}
    (hkeep : ∀ r ∈ st, r.m_Active = true → keep r = true)
    (huniq : ∀ r1 ∈ st, ∀ r2 ∈ st, r1.m_Active = true → r2.m_Active = true →
      r1.m_State.m_Height = r2.m_State.m_Height → r1 = r2)
    (h : Nat) : activeAt (st.filter keep) h = activeAt st h := by
  cases hfound : activeAt st h with
  | some r =>
    obtain ⟨hr, ha, hh⟩ := activeAt_some hfound
    unfold activeAt
    apply find?_unique
    · exact List.mem_filter.mpr ⟨hr, hkeep r hr ha⟩
    · simp [ha, hh]
    · intro x hx hpx
      simp only [Bool.and_eq_true, beq_iff_eq] at hpx
      exact huniq x (List.mem_of_mem_filter hx) r hr hpx.1 ha
        (hpx.2.trans hh.symm)
  | none =>
    unfold activeAt at hfound ⊢
    rw [List.find?_eq_none] at hfound ⊢
    intro x hx
    exact hfound x (List.mem_of_mem_filter hx)

theorem activeTipHeight_filter_keep {st : Store} {keep : StateRec → Bool}
    (hkeep : ∀ r ∈ st, r.m_Active = true → keep r = true) :
    activeTipHeight (st.filter keep) = activeTipHeight st := by
  apply Nat.le_antisymm
  · rcases activeTipHeight_cases (st.filter keep) with h0 | ⟨r, hr, ha, hv⟩
    · omega
    · rw [hv]
      exact activeTipHeight_ge st r (List.mem_of_mem_filter hr) ha
  · rcases activeTipHeight_cases st with h0 | ⟨r, hr, ha, hv⟩
    · omega
    · rw [hv]
      exact activeTipHeight_ge (st.filter keep) r
        (List.mem_filter.mpr ⟨hr, hkeep r hr ha⟩) ha

/-- Branch pruning followed by the Reachable recomputation preserves the
invariant: every Active record survives the filter. -/
theorem wfStore_prune_branch {st : Store} (hwf : wfStore st) (cut : Nat) :
    wfStore (recomputeReach (st.filter (pruneKeep st cut))) := by
  obtain ⟨hnd, hflag, huniq, hht, hlink⟩ := hwf
  have hkeep : ∀ r ∈ st, r.m_Active = true → pruneKeep st cut r = true := by
    intro r _ ha
    unfold pruneKeep
    rw [ha]
    rfl
  apply wfStore_recompute
  · unfold hashNodup at hnd ⊢
    exact List.Nodup.sublist (List.Sublist.map _ (List.filter_sublist st)) hnd
  · intro r1 h1 r2 h2 ha1 ha2 hh
    exact huniq r1 (List.mem_of_mem_filter h1) r2 (List.mem_of_mem_filter h2)
      ha1 ha2 hh
  · intro r hr
    exact hht r (List.mem_of_mem_filter hr)
  · intro i hi
    rw [activeTipHeight_filter_keep hkeep] at hi
    obtain ⟨r, hr, hfn, hlk⟩ := hlink i hi
    refine ⟨r, ?_, hfn, ?_⟩
    · rw [activeAt_filter_keep hkeep huniq]
      exact hr
    · rcases hlk with h0 | ⟨p, hp, hprev⟩
      · exact Or.inl h0
      · refine Or.inr ⟨p, ?_, hprev⟩
        rw [activeAt_filter_keep hkeep huniq]
        exact hp

theorem PruneOld_eq_bn {σ : NodeProcessor} {hTip hb : Nat}
    (hhz : σ.m_Horizon = ⟨some hb, none⟩) :
    PruneOld σ hTip = { σ with
      m_DB := recomputeReach (σ.m_DB.filter
        (pruneKeep σ.m_DB (hTip - hb))) } := by
  unfold PruneOld
  rw [hhz]

theorem PruneOld_eq_sn {σ : NodeProcessor} {hTip he : Nat}
    (hhz : σ.m_Horizon = ⟨none, some he⟩) :
    PruneOld σ hTip = { σ with
      m_DB := σ.m_DB.map (pruneErase (hTip - he)),
      m_FossilHeight := max σ.m_FossilHeight (hTip - he) } := by
  unfold PruneOld
  rw [hhz]

/-- Body erasure is a body-only map, so it preserves the invariant. -/
theorem wfStore_pruneErase {st : Store} (hwf : wfStore st) (cut : Nat) :
    wfStore (st.map (pruneErase cut)) :=
  wfStore_map_pres (fun r => ⟨(pruneErase_state _ _).1,
    (pruneErase_state _ _).2.2.1, (pruneErase_state _ _).2.1,
    (pruneErase_state _ _).2.2.2⟩) hwf

/-- `PruneOld` preserves the invariant at every tip height. -/
theorem wf_PruneOld {σ : NodeProcessor} (hwf : wf σ) (hTip : Nat) :
    wf (PruneOld σ hTip) := by
  rcases hbr : σ.m_Horizon.m_Branching with _ | hb <;>
    rcases hsc : σ.m_Horizon.m_Schwarzschild with _ | he
  · have hhz : σ.m_Horizon = ⟨none, none⟩ := by
      cases hz : σ.m_Horizon
      rw [hz] at hbr hsc
      simp only at hbr hsc
      rw [hbr, hsc]
    rw [PruneOld_default hTip hhz]
    exact hwf
  · have hhz : σ.m_Horizon = ⟨none, some he⟩ := by
      cases hz : σ.m_Horizon
      rw [hz] at hbr hsc
      simp only at hbr hsc
      rw [hbr, hsc]
    rw [PruneOld_eq_sn hhz]
    exact wfStore_pruneErase hwf _
  · have hhz : σ.m_Horizon = ⟨some hb, none⟩ := by
      cases hz : σ.m_Horizon
      rw [hz] at hbr hsc
      simp only at hbr hsc
      rw [hbr, hsc]
    rw [PruneOld_eq_bn hhz]
    exact wfStore_prune_branch hwf _
  · have hhz : σ.m_Horizon = ⟨some hb, some he⟩ := by
      cases hz : σ.m_Horizon
      rw [hz] at hbr hsc
      simp only at hbr hsc
      rw [hbr, hsc]
    rw [PruneOld_eq hhz]
    exact wfStore_pruneErase (wfStore_prune_branch hwf _) _

/- ---------------------------------------------------------------------
Claim C4, part 4 — preservation by header insertion, body storage and
the non-Functional marking of a failed record.
--------------------------------------------------------------------- -/

/-- Inserting a fresh valid header (inactive, body-less, Functional)
followed by the Reachable recomputation preserves the invariant. -/
theorem wfStore_insert {σ : NodeProcessor} (hwf : wf σ) {s : SystemState}
    (hv : s.IsValid = true) (hnew : hasRec σ.m_DB (hashOf s) = false) :
    wfStore (recomputeReach
      (σ.m_DB ++ [⟨s, none, true, false, false⟩])) := by
  obtain ⟨hnd, hflag, huniq, hht, hlink⟩ := hwf
  have hfind : findRec σ.m_DB (hashOf s) = none := by
    cases hf : findRec σ.m_DB (hashOf s) with
    | none => rfl
    | some r =>
      unfold hasRec at hnew
      rw [hf] at hnew
      simp at hnew
  have hact : (⟨s, none, true, false, false⟩ : StateRec).m_Active = false :=
    rfl
  apply wfStore_recompute
  · exact hashNodup_append hnd (fun r hr => findRec_none_hash hfind r hr)
  · intro r1 h1 r2 h2 ha1 ha2 hh
    rcases List.mem_append.mp h1 with hm1 | hm1
    · rcases List.mem_append.mp h2 with hm2 | hm2
      · exact huniq r1 hm1 r2 hm2 ha1 ha2 hh
      · simp only [List.mem_singleton] at hm2
        subst hm2
        simp at ha2
    · simp only [List.mem_singleton] at hm1
      subst hm1
      simp at ha1
  · intro r hr
    rcases List.mem_append.mp hr with hm | hm
    · exact hht r hm
    · simp only [List.mem_singleton] at hm
      subst hm
      simp only [SystemState.IsValid, decide_eq_true_eq] at hv
      exact hv
  · intro i hi
    rw [activeTipHeight_append_inactive hact] at hi
    obtain ⟨r, hr, hfn, hlk⟩ := hlink i hi
    refine ⟨r, ?_, hfn, ?_⟩
    · rw [activeAt_append_inactive hact]
      exact hr
    · rcases hlk with h0 | ⟨p, hp, hprev⟩
      · exact Or.inl h0
      · refine Or.inr ⟨p, ?_, hprev⟩
        rw [activeAt_append_inactive hact]
        exact hp

/-- Storing a body is a body-only map, so it preserves the invariant. -/
theorem wfStore_setBody {σ : NodeProcessor} (hwf : wf σ) (h : Nat)
    (b : Body) : wfStore (setBody σ.m_DB h b) := by
  unfold setBody
  apply wfStore_map_pres ?_ hwf
  intro r
  by_cases hh : (hashOf r.m_State == h) = true
  · rw [if_pos hh]
    exact ⟨rfl, rfl, rfl, rfl⟩
  · rw [if_neg hh]
    exact ⟨rfl, rfl, rfl, rfl⟩

/-- Marking a record non-Functional preserves the invariant as long as
the record is not Active (the failing record of the forward walk sits
above the current active tip). -/
theorem wf_markNonFunctional {σ : NodeProcessor} (hwf : wf σ) {h : Nat}
    (hna : ∀ r ∈ σ.m_DB, r.m_Active = true → hashOf r.m_State ≠ h) :
    wf (markNonFunctional σ h) := by
  unfold wf markNonFunctional
  obtain ⟨hnd, hflag, huniq, hht, hlink⟩ := hwf
  have hg : ∀ r : StateRec,
      ((if hashOf r.m_State == h then { r with m_Functional := false }
        else r) : StateRec).m_State = r.m_State ∧
      ((if hashOf r.m_State == h then { r with m_Functional := false }
        else r) : StateRec).m_Active = r.m_Active := by
    intro r
    by_cases hh : (hashOf r.m_State == h) = true
    · rw [if_pos hh]
      exact ⟨rfl, rfl⟩
    · rw [if_neg hh]
      exact ⟨rfl, rfl⟩
  apply wfStore_recompute
  · unfold clearFunctional
    exact hashNodup_map_pres (fun r => (hg r).1) hnd
  · intro r1 h1 r2 h2 ha1 ha2 hh
    unfold clearFunctional at h1 h2
    obtain ⟨x1, hx1, hE1⟩ := List.mem_map.mp h1
    obtain ⟨x2, hx2, hE2⟩ := List.mem_map.mp h2
    subst hE1
    subst hE2
    have e1 : x1.m_Active = true := by rw [← (hg x1).2]; exact ha1
    have e2 : x2.m_Active = true := by rw [← (hg x2).2]; exact ha2
    have eh : x1.m_State.m_Height = x2.m_State.m_Height := by
      rw [← (hg x1).1, ← (hg x2).1]
      exact hh
    rw [huniq x1 hx1 x2 hx2 e1 e2 eh]
  · intro r hr
    unfold clearFunctional at hr
    obtain ⟨x, hx, hEq⟩ := List.mem_map.mp hr
    subst hEq
    rw [(hg x).1]
    exact hht x hx
  · intro i hi
    unfold clearFunctional at hi ⊢
    rw [activeTipHeight_map_pres hg] at hi
    obtain ⟨r, hr, hfn, hlk⟩ := hlink i hi
    obtain ⟨hrm, hra, hrh⟩ := activeAt_some hr
    have hne : (hashOf r.m_State == h) = false := by
      simp [hna r hrm hra]
    refine ⟨r, ?_, hfn, ?_⟩
    · rw [activeAt_map_pres hg, hr]
      simp only [Option.map_some']
      rw [if_neg (by simp [hne])]
    · rcases hlk with h0 | ⟨p, hp, hprev⟩
      · exact Or.inl h0
      · obtain ⟨hpm, hpa, hph⟩ := activeAt_some hp
        have hpe : (hashOf p.m_State == h) = false := by
          simp [hna p hpm hpa]
        refine Or.inr ⟨p, ?_, hprev⟩
        rw [activeAt_map_pres hg, hp]
        simp only [Option.map_some']
        rw [if_neg (by simp [hpe])]

/- ---------------------------------------------------------------------
Claim C4, part 5 — indexing the active chain and the target chain.
--------------------------------------------------------------------- -/

theorem filterMap_range_length {α : Type} {f : Nat → Option α} :
    ∀ {n : Nat}, (∀ i, i < n → (f i).isSome = true) →
      ((List.range n).filterMap f).length = n := by
  intro n
  induction n with
  | zero => intro _; rfl
  | succ n ih =>
    intro h
    rw [List.range_succ, List.filterMap_append, List.length_append]
    rw [ih (fun i hi => h i (by omega))]
    have hn := h n (by omega)
    cases hf : f n with
    | none => rw [hf] at hn; simp at hn
    | some a => simp [List.filterMap_cons, hf]

theorem filterMap_range_get? {α : Type} {f : Nat → Option α} :
    ∀ {n : Nat}, (∀ i, i < n → (f i).isSome = true) →
      ∀ i, i < n → ((List.range n).filterMap f).get? i = f i := by
  intro n
  induction n with
  | zero => intro _ i hi; omega
  | succ n ih =>
    intro h i hi
    rw [List.range_succ, List.filterMap_append]
    have hlen : ((List.range n).filterMap f).length = n :=
      filterMap_range_length (fun j hj => h j (by omega))
    by_cases hin : i < n
    · rw [List.get?_append (by rw [hlen]; exact hin)]
      exact ih (fun j hj => h j (by omega)) i hin
    · have hieq : i = n := by omega
      subst hieq
      have hn := h i (by omega)
      cases hf : f i with
      | none => rw [hf] at hn; simp at hn
      | some a =>
        rw [show ([i].filterMap f) = [a] by simp [List.filterMap_cons, hf]]
        rw [List.get?_append_right (by omega)]
        simp [hlen, hf]

/-- Under the invariant the active chain lists, in height order, exactly
the Active record of every height from 1 up to the active tip. -/
theorem activeChain_spec {σ : NodeProcessor} (hwf : wf σ) :
    (activeChain σ).length = activeTipHeight σ.m_DB ∧
    ∀ i, i < activeTipHeight σ.m_DB →
      (activeChain σ).get? i = activeAt σ.m_DB (i + 1) := by
  have hdense : ∀ i, i < activeTipHeight σ.m_DB →
      ((fun i => activeAt σ.m_DB (i + 1)) i).isSome = true := by
    intro i hi
    obtain ⟨r, hr, -, -⟩ := hwf.2.2.2.2 i hi
    show (activeAt σ.m_DB (i + 1)).isSome = true
    rw [hr]
    rfl
  exact ⟨filterMap_range_length hdense,
    fun i hi => filterMap_range_get? hdense i hi⟩

theorem commonPrefixLen_le :
    ∀ (a b : List StateRec),
      commonPrefixLen a b ≤ a.length ∧ commonPrefixLen a b ≤ b.length := by
  intro a
  induction a with
  | nil => intro b; cases b <;> simp [commonPrefixLen]
  | cons x as ih =>
    intro b
    cases b with
    | nil => simp [commonPrefixLen]
    | cons y bs =>
      by_cases hh : (hashOf x.m_State == hashOf y.m_State) = true
      · have := ih bs
        simp only [commonPrefixLen, hh, if_true, List.length_cons]
        omega
      · simp only [commonPrefixLen, if_neg hh, List.length_cons]
        omega

theorem commonPrefixLen_spec :
    ∀ (a b : List StateRec) (i : Nat), i < commonPrefixLen a b →
      ∃ x y, a.get? i = some x ∧ b.get? i = some y ∧
        hashOf x.m_State = hashOf y.m_State := by
  intro a
  induction a with
  | nil =>
    intro b i hi
    cases b <;> simp [commonPrefixLen] at hi
  | cons x as ih =>
    intro b i hi
    cases b with
    | nil => simp [commonPrefixLen] at hi
    | cons y bs =>
      by_cases hh : (hashOf x.m_State == hashOf y.m_State) = true
      · simp only [commonPrefixLen, hh, if_true] at hi
        cases i with
        | zero => exact ⟨x, y, rfl, rfl, by simpa using hh⟩
        | succ j =>
          obtain ⟨x', y', hx', hy', hxy⟩ := ih bs j (by omega)
          exact ⟨x', y', by simpa using hx', by simpa using hy', hxy⟩
      · simp only [commonPrefixLen, if_neg hh] at hi
        omega

theorem chainToGo_spec {st : Store} :
    ∀ (fuel : Nat) (r : StateRec) (c : List StateRec),
      chainToGo st fuel r = some c → r ∈ st →
      c.length = r.m_State.m_Height ∧
      c.get? (r.m_State.m_Height - 1) = some r ∧
      (∀ j x, c.get? j = some x → x.m_State.m_Height = j + 1 ∧ x ∈ st) ∧
      (∀ j x y, c.get? j = some x → c.get? (j + 1) = some y →
        y.m_State.m_Prev = hashOf x.m_State) := by
  intro fuel
  induction fuel with
  | zero => intro r c hc; simp [chainToGo] at hc
  | succ fuel ih =>
    intro r c hc hr
    unfold chainToGo at hc
    by_cases h1 : (r.m_State.m_Height == 1) = true
    · rw [if_pos h1] at hc
      injection hc with hc
      subst hc
      have hh1 : r.m_State.m_Height = 1 := by simpa using h1
      refine ⟨by simp [hh1], ?_, ?_, ?_⟩
      · rw [hh1]
        rfl
      · intro j x hx
        cases j with
        | zero =>
          injection hx with hx
          subst hx
          exact ⟨hh1, hr⟩
        | succ j => simp at hx
      · intro j x y _ hy
        cases j <;> simp at hy
    · rw [if_neg h1] at hc
      cases hp : findRec st r.m_State.m_Prev with
      | none =>
        simp only [hp] at hc
        exact absurd hc (by simp)
      | some p =>
        simp only [hp] at hc
        by_cases hg : (p.m_State.m_Height + 1 == r.m_State.m_Height) = true
        · rw [if_pos hg] at hc
          cases hc0 : chainToGo st fuel p with
          | none =>
            simp only [hc0] at hc
            exact absurd hc (by simp)
          | some c0 =>
            simp only [hc0] at hc
            injection hc with hc
            subst hc
            have hpm : p ∈ st := (findRec_some_mem hp).1
            have hphash : hashOf p.m_State = r.m_State.m_Prev :=
              (findRec_some_mem hp).2
            have hgP : p.m_State.m_Height + 1 = r.m_State.m_Height := by
              simpa using hg
            obtain ⟨hlen0, hlast0, hfacts0, hlink0⟩ := ih p c0 hc0 hpm
            have hlen : (c0 ++ [r]).length = r.m_State.m_Height := by
              simp [hlen0]
              omega
            refine ⟨hlen, ?_, ?_, ?_⟩
            · rw [show r.m_State.m_Height - 1 = c0.length by omega]
              exact List.get?_concat_length c0 r
            · intro j x hx
              rcases Nat.lt_trichotomy j c0.length with hj | hj | hj
              · rw [List.get?_append hj] at hx
                exact ⟨(hfacts0 j x hx).1, (hfacts0 j x hx).2⟩
              · rw [hj] at hx
                rw [List.get?_concat_length] at hx
                injection hx with hx
                subst hx
                constructor
                · omega
                · exact hr
              · rw [List.get?_append_right (by omega)] at hx
                have : [r].get? (j - c0.length) = none := by
                  rw [List.get?_eq_none]
                  simp
                  omega
                rw [this] at hx
                simp at hx
            · intro j x y hx hy
              rcases Nat.lt_trichotomy (j + 1) c0.length with hj | hj | hj
              · rw [List.get?_append hj] at hy
                rw [List.get?_append (by omega)] at hx
                exact hlink0 j x y hx hy
              · -- y is the appended record `r`, x is the last of `c0`,
                -- the parent `p`
                rw [hj] at hy
                rw [List.get?_concat_length] at hy
                injection hy with hy
                subst hy
                rw [List.get?_append (by omega)] at hx
                have hxp : c0.get? j = some p := by
                  rw [show j = p.m_State.m_Height - 1 by omega] at hx ⊢
                  exact hlast0
                rw [hx] at hxp
                injection hxp with hxp
                subst hxp
                rw [hphash]
              · rw [List.get?_append_right (by omega)] at hy
                have : [r].get? (j + 1 - c0.length) = none := by
                  rw [List.get?_eq_none]
                  simp
                  omega
                rw [this] at hy
                simp at hy
        · rw [if_neg hg] at hc
          simp at hc

/-- A derived-Reachable record has a full ancestor chain, and every record
on it is Functional. -/
theorem reachD_chain {st : Store} :
    ∀ (fuel : Nat) (r : StateRec), reachDGo st fuel r = true →
      ∃ c, chainToGo st fuel r = some c ∧
        ∀ x ∈ c, x.m_Functional = true := by
  intro fuel
  induction fuel with
  | zero => intro r h; simp [reachDGo] at h
  | succ fuel ih =>
    intro r h
    simp only [reachDGo, Bool.and_eq_true, Bool.or_eq_true] at h
    obtain ⟨hf, hrest⟩ := h
    by_cases h1 : (r.m_State.m_Height == 1) = true
    · refine ⟨[r], ?_, ?_⟩
      · unfold chainToGo
        rw [if_pos h1]
      · intro x hx
        simp only [List.mem_singleton] at hx
        subst hx
        exact hf
    · rcases hrest with h1' | hrest
      · exact absurd h1' h1
      · cases hp : findRec st r.m_State.m_Prev with
        | none =>
          simp only [hp] at hrest
          exact absurd hrest (by simp)
        | some p =>
          simp only [hp] at hrest
          simp only [Bool.and_eq_true] at hrest
          obtain ⟨hg, hrec⟩ := hrest
          obtain ⟨c0, hc0, hall⟩ := ih p hrec
          refine ⟨c0 ++ [r], ?_, ?_⟩
          · unfold chainToGo
            rw [if_neg h1]
            simp only [hp]
            rw [if_pos hg]
            simp only [hc0]
          · intro x hx
            rcases List.mem_append.mp hx with hm | hm
            · exact hall x hm
            · simp only [List.mem_singleton] at hm
              subst hm
              exact hf

theorem bestReachable_mem {st : Store} {b : StateRec}
    (h : bestReachable st = some b) : b ∈ st ∧ b.m_Reachable = true := by
  unfold bestReachable at h
  obtain ⟨hmem, -, -⟩ := bestStep_spec st none b h
  rcases hmem with hmem | hmem
  · exact hmem
  · exact absurd hmem (by simp)

/- ---------------------------------------------------------------------
Claim C4, part 6 — the rollback fold deactivates exactly the undone
records.
--------------------------------------------------------------------- -/

/-- Deactivate a record when its hash is in the given list. -/
def deactIf (hs : List Nat) (r : StateRec) : StateRec :=
  if hs.contains (hashOf r.m_State) then { r with m_Active := false } else r

theorem deactIf_state (hs : List Nat) (r : StateRec) :
    (deactIf hs r).m_State = r.m_State ∧
    (deactIf hs r).m_Functional = r.m_Functional ∧
    (deactIf hs r).m_Body = r.m_Body ∧
    (deactIf hs r).m_Reachable = r.m_Reachable := by
  unfold deactIf
  split
  · exact ⟨rfl, rfl, rfl, rfl⟩
  · exact ⟨rfl, rfl, rfl, rfl⟩

theorem deactIf_deact (hs : List Nat) (r : StateRec) :
    deactIf hs { r with m_Active := false } = { r with m_Active := false } := by
  unfold deactIf
  split
  · rfl
  · rfl

theorem deactIf_cons (hx : Nat) (hs : List Nat) (r : StateRec) :
    deactIf hs
        (if hashOf r.m_State == hx then { r with m_Active := false } else r)
      = deactIf (hx :: hs) r := by
  by_cases hh : (hashOf r.m_State == hx) = true
  · rw [if_pos hh, deactIf_deact]
    have hc : (hx :: hs).contains (hashOf r.m_State) = true := by
      rw [List.contains_cons]
      simp [hh]
    unfold deactIf
    rw [if_pos hc]
  · rw [if_neg hh]
    have hc : (hx :: hs).contains (hashOf r.m_State)
        = hs.contains (hashOf r.m_State) := by
      rw [List.contains_cons]
      have hh' : (hashOf r.m_State == hx) = false := by simpa using hh
      rw [hh']
      rfl
    unfold deactIf
    rw [hc]

theorem foldl_undoStep_db (L : List StateRec) :
    ∀ (σ : NodeProcessor), (∀ r ∈ L, r.m_Body.isSome = true) →
      (L.foldl undoStep σ).m_DB =
        σ.m_DB.map (deactIf (L.map (fun r => hashOf r.m_State))) := by
  induction L with
  | nil =>
    intro σ _
    simp only [List.map_nil, List.foldl_nil]
    have hid : ∀ r ∈ σ.m_DB, deactIf [] r = r := by
      intro r _
      unfold deactIf
      simp
    have h2 : σ.m_DB.map (deactIf []) = σ.m_DB := by
      have h3 := List.map_congr_left hid
      simpa using h3
    exact h2.symm
  | cons x L ih =>
    intro σ hb
    have hbx : x.m_Body.isSome = true := hb x (List.mem_cons_self _ _)
    obtain ⟨bx, hbx'⟩ := Option.isSome_iff_exists.mp hbx
    simp only [List.foldl_cons, List.map_cons]
    rw [ih (undoStep σ x) (fun r hr => hb r (List.mem_cons_of_mem _ hr))]
    have hdbx : (undoStep σ x).m_DB =
        setActive σ.m_DB (hashOf x.m_State) false := by
      unfold undoStep
      rw [hbx']
    rw [hdbx]
    unfold setActive
    rw [List.map_map]
    apply List.map_congr_left
    intro r _
    show deactIf _ (if hashOf r.m_State == hashOf x.m_State then _ else r) = _
    rw [deactIf_cons]

theorem foldl_undoStep_frame (L : List StateRec) :
    ∀ (σ : NodeProcessor),
      (L.foldl undoStep σ).m_Horizon = σ.m_Horizon ∧
      (L.foldl undoStep σ).m_FossilHeight = σ.m_FossilHeight := by
  induction L with
  | nil => intro σ; exact ⟨rfl, rfl⟩
  | cons x L ih =>
    intro σ
    simp only [List.foldl_cons]
    obtain ⟨h1, h2⟩ := ih (undoStep σ x)
    rw [h1, h2]
    unfold undoStep
    cases x.m_Body with
    | none => exact ⟨rfl, rfl⟩
    | some b => exact ⟨rfl, rfl⟩

theorem get?_some_lt {α : Type} {l : List α} {n : Nat} {a : α}
    (h : l.get? n = some a) : n < l.length := by
  by_contra hc
  rw [List.get?_eq_none.mpr (by omega)] at h
  simp at h

/-- The invariant carried along the forward walk of one `TryGoUp`
iteration: the processor is well-formed, the active tip sits at height
`m`, the tip record (when `m > 0`) carries the header of the chain's
`m`-th record, and every record of the entry store still has a
same-header same-Functional representative in the current store. -/
def fwdInv (σ0 : NodeProcessor) (cb : List StateRec)
    (σc : NodeProcessor) (m : Nat) : Prop :=
  wf σc ∧ activeTipHeight σc.m_DB = m ∧
  (m = 0 ∨ ∃ t x, activeAt σc.m_DB m = some t ∧ cb.get? (m - 1) = some x ∧
    t.m_State = x.m_State) ∧
  (∀ x ∈ σ0.m_DB, ∃ y ∈ σc.m_DB, y.m_State = x.m_State ∧
    y.m_Functional = x.m_Functional)

/- ---------------------------------------------------------------------
Claim C4, part 7 — deactivating the records above the fork keeps the
store well-formed with the tip lowered to the fork height.
--------------------------------------------------------------------- -/

/-- Deactivating exactly the Active records above height `k` (given by
their hashes) preserves the invariant, lowers the tip to `k`, and leaves
`activeAt` unchanged at heights up to `k`. -/
theorem deact_inv {st : Store} (hwf : wfStore st) {hs : List Nat} {k : Nat}
    (hkT : k ≤ activeTipHeight st)
    (hhs1 : ∀ hh ∈ hs, ∃ z, z ∈ st ∧ z.m_Active = true ∧
      k < z.m_State.m_Height ∧ hh = hashOf z.m_State)
    (hhs2 : ∀ z, z ∈ st → z.m_Active = true → k < z.m_State.m_Height →
      hashOf z.m_State ∈ hs) :
    wfStore (st.map (deactIf hs)) ∧
    activeTipHeight (st.map (deactIf hs)) = k ∧
    (∀ h, h ≤ k → activeAt (st.map (deactIf hs)) h = activeAt st h) := by
  obtain ⟨hnd, hflag, huniq, hht, hlink⟩ := hwf
  have hcont : ∀ (a : Nat), hs.contains a = true ↔ a ∈ hs := by
    intro a
    exact List.elem_iff
  -- an Active record at height at most k is never deactivated
  have hlow_nc : ∀ w, w ∈ st → w.m_Active = true →
      w.m_State.m_Height ≤ k → hs.contains (hashOf w.m_State) = false := by
    intro w hw hwa hwh
    by_contra hcc
    rw [Bool.not_eq_false] at hcc
    obtain ⟨z, hz, hza, hzh, hzeq⟩ := hhs1 _ ((hcont _).mp hcc)
    have hze := hashOf_injective hzeq
    rw [hze] at hwh
    omega
  -- the image of a record keeps every field but the Active flag
  have himg_id : ∀ w, hs.contains (hashOf w.m_State) = false →
      deactIf hs w = w := by
    intro w hnc
    unfold deactIf
    rw [if_neg (by rw [hnc]; simp)]
  -- an Active image comes from an untouched Active original
  have hact_orig : ∀ x, (deactIf hs x).m_Active = true →
      x.m_Active = true ∧ hs.contains (hashOf x.m_State) = false := by
    intro x ha
    unfold deactIf at ha
    by_cases hc : hs.contains (hashOf x.m_State) = true
    · rw [if_pos hc] at ha
      simp at ha
    · rw [if_neg hc] at ha
      exact ⟨ha, by simpa using hc⟩
  have hActLow : ∀ h, h ≤ k →
      activeAt (st.map (deactIf hs)) h = activeAt st h := by
    intro h hhk
    unfold activeAt
    rw [List.find?_map]
    have hpe : ∀ x ∈ st,
        ((fun r => r.m_Active && (r.m_State.m_Height == h)) ∘ deactIf hs) x
          = (fun r => r.m_Active && (r.m_State.m_Height == h)) x := by
      intro x _
      show ((deactIf hs x).m_Active && ((deactIf hs x).m_State.m_Height == h))
          = (x.m_Active && (x.m_State.m_Height == h))
      rw [(deactIf_state hs x).1]
      unfold deactIf
      by_cases hc : hs.contains (hashOf x.m_State) = true
      · rw [if_pos hc]
        obtain ⟨z, hz, hza, hzh, hzeq⟩ := hhs1 _ ((hcont _).mp hc)
        have hxz := hashOf_injective hzeq
        have hne : (x.m_State.m_Height == h) = false := by
          rw [beq_eq_false_iff_ne]
          rw [hxz]
          omega
        simp [hne]
      · rw [if_neg hc]
    rw [find?_congr_mem hpe]
    cases hf : st.find? (fun r => r.m_Active && (r.m_State.m_Height == h)) with
    | none => simp
    | some w =>
      simp only [Option.map_some']
      have hwm := List.mem_of_find?_eq_some hf
      have hws := List.find?_some hf
      simp only [Bool.and_eq_true, beq_iff_eq] at hws
      obtain ⟨hwa, hwh⟩ := hws
      rw [himg_id w (hlow_nc w hwm hwa (by omega))]
  have hActHigh : ∀ h, k < h →
      activeAt (st.map (deactIf hs)) h = none := by
    intro h hhk
    unfold activeAt
    rw [List.find?_map, Option.map_eq_none', List.find?_eq_none]
    intro x hx hpx
    simp only [Function.comp] at hpx
    rw [Bool.and_eq_true] at hpx
    obtain ⟨hpa, hph⟩ := hpx
    rw [(deactIf_state hs x).1] at hph
    have hxh : x.m_State.m_Height = h := by simpa using hph
    obtain ⟨hxa, hnc⟩ := hact_orig x hpa
    have hmem := (hcont (hashOf x.m_State)).mpr (hhs2 x hx hxa (by omega))
    rw [hnc] at hmem
    simp at hmem
  have hT1 : activeTipHeight (st.map (deactIf hs)) = k := by
    apply Nat.le_antisymm
    · rcases activeTipHeight_cases (st.map (deactIf hs)) with
        h0 | ⟨r, hr, ha, hv⟩
      · omega
      · obtain ⟨x, hx, hEq⟩ := List.mem_map.mp hr
        subst hEq
        obtain ⟨hxa, hnc⟩ := hact_orig x ha
        have hhx : x.m_State.m_Height ≤ k := by
          by_contra hgt
          have hmem := (hcont _).mpr (hhs2 x hx hxa (by omega))
          rw [hnc] at hmem
          simp at hmem
        rw [hv, (deactIf_state hs x).1]
        exact hhx
    · by_cases hk0 : k = 0
      · omega
      · have hidx : k - 1 < activeTipHeight st := by omega
        obtain ⟨w, hw, -, -⟩ := hlink _ hidx
        obtain ⟨hwm, hwa, hwh⟩ := activeAt_some hw
        have hnc := hlow_nc w hwm hwa (by omega)
        have hmem1 : w ∈ st.map (deactIf hs) := by
          rw [← himg_id w hnc]
          exact List.mem_map_of_mem _ hwm
        have := activeTipHeight_ge _ w hmem1 hwa
        omega
  have hsf1 : (st.map (deactIf hs)).map sfProj = st.map sfProj :=
    sf_map_pres (fun r => ⟨(deactIf_state hs r).1, (deactIf_state hs r).2.1⟩)
      st
  refine ⟨⟨hashNodup_map_pres (fun r => (deactIf_state hs r).1) hnd,
    ?_, ?_, ?_, ?_⟩, hT1, hActLow⟩
  · intro r hr
    obtain ⟨x, hx, hEq⟩ := List.mem_map.mp hr
    subst hEq
    rw [(deactIf_state hs x).2.2.2, hflag x hx]
    exact reachD_sf hsf1.symm ((deactIf_state hs x).1).symm
      ((deactIf_state hs x).2.1).symm
  · intro r1 h1 r2 h2 ha1 ha2 hh
    obtain ⟨x1, hx1, hE1⟩ := List.mem_map.mp h1
    obtain ⟨x2, hx2, hE2⟩ := List.mem_map.mp h2
    subst hE1
    subst hE2
    have hid1 : deactIf hs x1 = x1 := himg_id x1 (hact_orig x1 ha1).2
    have hid2 : deactIf hs x2 = x2 := himg_id x2 (hact_orig x2 ha2).2
    rw [hid1] at ha1 hh ⊢
    rw [hid2] at ha2 hh ⊢
    rw [huniq x1 hx1 x2 hx2 ha1 ha2 hh]
  · intro r hr
    obtain ⟨x, hx, hEq⟩ := List.mem_map.mp hr
    subst hEq
    rw [(deactIf_state hs x).1]
    exact hht x hx
  · intro i hi
    rw [hT1] at hi
    rw [hActLow (i + 1) (by omega)]
    obtain ⟨r, hr, hfn, hlk⟩ := hlink i (by omega)
    refine ⟨r, hr, hfn, ?_⟩
    rcases hlk with h0 | ⟨p, hp, hprev⟩
    · exact Or.inl h0
    · refine Or.inr ⟨p, ?_, hprev⟩
      rw [hActLow i (by omega)]
      exact hp

/- ---------------------------------------------------------------------
Claim C4, part 8 — the rollback establishes the forward-walk invariant
at the fork height.
--------------------------------------------------------------------- -/

theorem rollback_inv {σ : NodeProcessor} (hwf : wf σ) (cb : List StateRec)
    {k : Nat} (hk : k = commonPrefixLen (activeChain σ) cb)
    (hguard : (((activeChain σ).drop k).reverse.any
      (fun r => r.m_Body.isNone)) = false) :
    fwdInv σ cb ((((activeChain σ).drop k).reverse).foldl undoStep σ) k := by
  have hwfc := hwf
  obtain ⟨hnd, hflag, huniq, hht, hlink⟩ := hwfc
  obtain ⟨hacl, hacg⟩ := activeChain_spec hwf
  have hkT : k ≤ activeTipHeight σ.m_DB := by
    rw [hk, ← hacl]
    exact (commonPrefixLen_le _ _).1
  have hbodies : ∀ r ∈ ((activeChain σ).drop k).reverse,
      r.m_Body.isSome = true := by
    intro r hr
    rw [List.any_eq_false] at hguard
    have := hguard r hr
    cases hb : r.m_Body with
    | none => rw [hb] at this; simp at this
    | some b => simp
  have hdb := foldl_undoStep_db _ σ hbodies
  -- the undone hashes are exactly the hashes of the Active records above
  -- the fork
  have hhs1 : ∀ hh ∈ (((activeChain σ).drop k).reverse.map
      (fun r => hashOf r.m_State)), ∃ z, z ∈ σ.m_DB ∧ z.m_Active = true ∧
      k < z.m_State.m_Height ∧ hh = hashOf z.m_State := by
    intro hh hmem
    obtain ⟨r, hr, hEq⟩ := List.mem_map.mp hmem
    rw [List.mem_reverse] at hr
    obtain ⟨j, hj⟩ := List.mem_iff_get?.mp hr
    rw [List.get?_drop] at hj
    have hlt : k + j < activeTipHeight σ.m_DB := by
      have := get?_some_lt hj
      omega
    rw [hacg (k + j) hlt] at hj
    obtain ⟨hm, ha, hht'⟩ := activeAt_some hj
    exact ⟨r, hm, ha, by omega, hEq.symm⟩
  have hhs2 : ∀ z, z ∈ σ.m_DB → z.m_Active = true →
      k < z.m_State.m_Height → hashOf z.m_State ∈
        (((activeChain σ).drop k).reverse.map
          (fun r => hashOf r.m_State)) := by
    intro z hz ha hgt
    have hle : z.m_State.m_Height ≤ activeTipHeight σ.m_DB :=
      activeTipHeight_ge _ z hz ha
    have h1z : 1 ≤ z.m_State.m_Height := hht z hz
    have hidx : z.m_State.m_Height - 1 < activeTipHeight σ.m_DB := by omega
    obtain ⟨w, hw, -, -⟩ := hlink _ hidx
    obtain ⟨hwm, hwa, hwh⟩ := activeAt_some hw
    have hwz : w = z := huniq w hwm z hz hwa ha (by omega)
    have hget2 : ((activeChain σ).drop k).get?
        (z.m_State.m_Height - 1 - k) = some z := by
      rw [List.get?_drop]
      rw [show k + (z.m_State.m_Height - 1 - k) = z.m_State.m_Height - 1
        by omega]
      rw [hacg _ hidx, hw, hwz]
    apply List.mem_map_of_mem
    rw [List.mem_reverse]
    exact List.get?_mem hget2
  obtain ⟨hwf1, hT1, hActLow⟩ := deact_inv hwf hkT hhs1 hhs2
  unfold fwdInv
  refine ⟨?_, ?_, ?_, ?_⟩
  · show wfStore _
    rw [hdb]
    exact hwf1
  · rw [hdb]
    exact hT1
  · rw [hdb]
    by_cases hk0 : k = 0
    · exact Or.inl hk0
    · right
      have hidx : k - 1 < activeTipHeight σ.m_DB := by omega
      obtain ⟨w, hw, -, -⟩ := hlink _ hidx
      obtain ⟨xc, yc, hxc, hyc, hcpf⟩ :=
        commonPrefixLen_spec (activeChain σ) cb (k - 1) (by omega)
      have hacg' : (activeChain σ).get? (k - 1) = some w := by
        rw [hacg _ hidx]
        exact hw
      rw [hacg'] at hxc
      injection hxc with hxc
      rw [← hxc] at hcpf
      refine ⟨w, yc, ?_, hyc, hashOf_injective hcpf⟩
      rw [hActLow k (by omega)]
      rw [show k = k - 1 + 1 by omega]
      exact hw
  · intro x hx
    rw [hdb]
    exact ⟨deactIf _ x, List.mem_map_of_mem _ hx,
      (deactIf_state _ x).1, (deactIf_state _ x).2.1⟩

/- ---------------------------------------------------------------------
Claim C4, part 9 — a successful forward step keeps the invariant, with
the tip raised by one.
--------------------------------------------------------------------- -/

theorem activate_inv {σ0 : NodeProcessor} {cb : List StateRec}
    (hcb : ∀ j x, cb.get? j = some x →
      x.m_State.m_Height = j + 1 ∧ x ∈ σ0.m_DB ∧ x.m_Functional = true)
    (hlinkcb : ∀ j x y, cb.get? j = some x → cb.get? (j + 1) = some y →
      y.m_State.m_Prev = hashOf x.m_State)
    {σc σn : NodeProcessor} {m : Nat} (hinv : fwdInv σ0 cb σc m)
    {r : StateRec} (hgm : cb.get? m = some r)
    (hdbn : σn.m_DB = setActive σc.m_DB (hashOf r.m_State) true) :
    fwdInv σ0 cb σn (m + 1) := by
  obtain ⟨hwfc, hTc, htip, hcov⟩ := hinv
  have hwfc' := hwfc
  obtain ⟨hnd, hflag, huniq, hht, hlink⟩ := hwfc'
  obtain ⟨hrh, hr0, hrf⟩ := hcb m r hgm
  obtain ⟨y, hym, hys, hyf'⟩ := hcov r hr0
  have hyf : y.m_Functional = true := by rw [hyf']; exact hrf
  have hyh : y.m_State.m_Height = m + 1 := by rw [hys]; exact hrh
  have hyhash : hashOf y.m_State = hashOf r.m_State := by rw [hys]
  have hyna : y.m_Active = false := by
    by_contra hya
    rw [Bool.not_eq_false] at hya
    have := activeTipHeight_ge _ y hym hya
    omega
  have hyuniq : ∀ x ∈ σc.m_DB,
      hashOf x.m_State = hashOf r.m_State → x = y := by
    intro x hx hxh
    exact mem_eq_of_hashNodup hnd hx hym (by rw [hxh, hyhash])
  have hactF : ∀ x : StateRec,
      ((if hashOf x.m_State == hashOf r.m_State
        then { x with m_Active := true } else x) : StateRec).m_State
          = x.m_State ∧
      ((if hashOf x.m_State == hashOf r.m_State
        then { x with m_Active := true } else x) : StateRec).m_Functional
          = x.m_Functional := by
    intro x
    split
    · exact ⟨rfl, rfl⟩
    · exact ⟨rfl, rfl⟩
  have himg_y : (if hashOf y.m_State == hashOf r.m_State
      then { y with m_Active := true } else y) =
        { y with m_Active := true } := by
    rw [if_pos (by simp [hyhash])]
  have himg_id : ∀ x : StateRec, hashOf x.m_State ≠ hashOf r.m_State →
      (if hashOf x.m_State == hashOf r.m_State
        then { x with m_Active := true } else x) = x := by
    intro x hne
    rw [if_neg (by simpa using hne)]
  -- an Active image at height at most `m` is an untouched Active original
  have hact_orig : ∀ x ∈ σc.m_DB,
      ((if hashOf x.m_State == hashOf r.m_State
        then { x with m_Active := true } else x) : StateRec).m_Active = true →
      x = y ∨ (x.m_Active = true ∧
        (if hashOf x.m_State == hashOf r.m_State
          then { x with m_Active := true } else x) = x) := by
    intro x hx ha
    by_cases hh : hashOf x.m_State = hashOf r.m_State
    · exact Or.inl (hyuniq x hx hh)
    · right
      rw [himg_id x hh] at ha
      exact ⟨ha, himg_id x hh⟩
  have hA_low : ∀ h, h ≤ m →
      activeAt σn.m_DB h = activeAt σc.m_DB h := by
    intro h hhk
    rw [hdbn]
    unfold setActive activeAt
    rw [List.find?_map]
    have hpe : ∀ x ∈ σc.m_DB,
        ((fun q => q.m_Active && (q.m_State.m_Height == h)) ∘
          (fun q => if hashOf q.m_State == hashOf r.m_State
            then { q with m_Active := true } else q)) x
          = (fun q => q.m_Active && (q.m_State.m_Height == h)) x := by
      intro x hx
      simp only [Function.comp]
      by_cases hc : hashOf x.m_State = hashOf r.m_State
      · have hxy := hyuniq x hx hc
        subst hxy
        rw [himg_y]
        have hne : (x.m_State.m_Height == h) = false := by
          rw [beq_eq_false_iff_ne]
          omega
        simp [hyna, hne]
      · rw [himg_id x hc]
    rw [find?_congr_mem hpe]
    cases hf : σc.m_DB.find?
        (fun q => q.m_Active && (q.m_State.m_Height == h)) with
    | none => simp
    | some w =>
      simp only [Option.map_some']
      have hwm := List.mem_of_find?_eq_some hf
      have hws := List.find?_some hf
      simp only [Bool.and_eq_true, beq_iff_eq] at hws
      obtain ⟨hwa, hwh⟩ := hws
      have hwne : hashOf w.m_State ≠ hashOf r.m_State := by
        intro hcc
        have hwy := hyuniq w hwm hcc
        subst hwy
        rw [hyna] at hwa
        simp at hwa
      rw [himg_id w hwne]
  have hA_new : activeAt σn.m_DB (m + 1) =
      some { y with m_Active := true } := by
    rw [hdbn]
    unfold setActive activeAt
    rw [List.find?_map]
    have hfind : σc.m_DB.find?
        ((fun q => q.m_Active && (q.m_State.m_Height == m + 1)) ∘
          (fun q => if hashOf q.m_State == hashOf r.m_State
            then { q with m_Active := true } else q)) = some y := by
      apply find?_unique hym
      · simp only [Function.comp]
        rw [himg_y]
        simp [hyh]
      · intro x hx hqx
        by_cases hc : hashOf x.m_State = hashOf r.m_State
        · exact hyuniq x hx hc
        · exfalso
          simp only [Function.comp] at hqx
          rw [himg_id x hc] at hqx
          rw [Bool.and_eq_true] at hqx
          obtain ⟨hxa, hxh⟩ := hqx
          have hxh' : x.m_State.m_Height = m + 1 := by simpa using hxh
          have := activeTipHeight_ge _ x hx hxa
          omega
    rw [hfind]
    simp only [Option.map_some']
    rw [himg_y]
  have hmemy : ({ y with m_Active := true } : StateRec) ∈ σn.m_DB := by
    rw [hdbn]
    unfold setActive
    rw [← himg_y]
    exact List.mem_map_of_mem _ hym
  have hT_new : activeTipHeight σn.m_DB = m + 1 := by
    apply Nat.le_antisymm
    · rcases activeTipHeight_cases σn.m_DB with h0 | ⟨rec, hrec, hact, hval⟩
      · omega
      · rw [hdbn] at hrec
        unfold setActive at hrec
        obtain ⟨x, hx, hEq⟩ := List.mem_map.mp hrec
        subst hEq
        rcases hact_orig x hx hact with hxy | ⟨hxa, hid⟩
        · subst hxy
          rw [himg_y] at hval
          have hv2 : activeTipHeight σn.m_DB = x.m_State.m_Height := hval
          omega
        · rw [hid] at hval
          have := activeTipHeight_ge _ x hx hxa
          omega
    · have h1 := activeTipHeight_ge _ _ hmemy
        (show ({ y with m_Active := true } : StateRec).m_Active = true
          from rfl)
      have h2 : y.m_State.m_Height ≤ activeTipHeight σn.m_DB := h1
      omega
  have hsfn : σn.m_DB.map sfProj = σc.m_DB.map sfProj := by
    rw [hdbn]
    unfold setActive
    exact sf_map_pres (fun x => ⟨(hactF x).1, (hactF x).2⟩) σc.m_DB
  have hreachpres : ∀ x : StateRec,
      ((if hashOf x.m_State == hashOf r.m_State
        then { x with m_Active := true } else x) : StateRec).m_Reachable
          = x.m_Reachable := by
    intro x
    split
    · rfl
    · rfl
  refine ⟨⟨?_, ?_, ?_, ?_, ?_⟩, hT_new, ?_, ?_⟩
  · rw [hdbn]
    unfold setActive
    exact hashNodup_map_pres (fun x => (hactF x).1) hnd
  · intro rec hrec
    rw [hdbn] at hrec
    unfold setActive at hrec
    obtain ⟨x, hx, hEq⟩ := List.mem_map.mp hrec
    subst hEq
    have e1 := hreachpres x
    have e2 := hflag x hx
    have e3 : reachD σc.m_DB x =
        reachD σn.m_DB (if hashOf x.m_State == hashOf r.m_State
          then { x with m_Active := true } else x) :=
      reachD_sf hsfn.symm ((hactF x).1).symm ((hactF x).2).symm
    exact e1.trans (e2.trans e3)
  · intro z1 h1 z2 h2 ha1 ha2 hh
    rw [hdbn] at h1 h2
    unfold setActive at h1 h2
    obtain ⟨x1, hx1, hE1⟩ := List.mem_map.mp h1
    obtain ⟨x2, hx2, hE2⟩ := List.mem_map.mp h2
    subst hE1
    subst hE2
    rcases hact_orig x1 hx1 ha1 with hy1 | ⟨hxa1, hid1⟩ <;>
      rcases hact_orig x2 hx2 ha2 with hy2 | ⟨hxa2, hid2⟩
    · rw [hy1, hy2]
    · exfalso
      subst hy1
      rw [himg_y] at hh
      rw [hid2] at hh
      have hh2 : x1.m_State.m_Height = x2.m_State.m_Height := hh
      have := activeTipHeight_ge _ x2 hx2 hxa2
      omega
    · exfalso
      subst hy2
      rw [himg_y] at hh
      rw [hid1] at hh
      have hh2 : x1.m_State.m_Height = x2.m_State.m_Height := hh
      have := activeTipHeight_ge _ x1 hx1 hxa1
      omega
    · rw [hid1] at hh ⊢
      rw [hid2] at hh ⊢
      rw [huniq x1 hx1 x2 hx2 hxa1 hxa2 hh]
  · intro rec hrec
    rw [hdbn] at hrec
    unfold setActive at hrec
    obtain ⟨x, hx, hEq⟩ := List.mem_map.mp hrec
    subst hEq
    have h2 : 1 ≤ x.m_State.m_Height := hht x hx
    have h3 : ((if hashOf x.m_State == hashOf r.m_State
        then { x with m_Active := true } else x) : StateRec).m_State
          = x.m_State := (hactF x).1
    rw [h3]
    exact h2
  · intro i hi
    rw [hT_new] at hi
    rcases Nat.lt_succ_iff_lt_or_eq.mp hi with him | him
    · rw [hA_low (i + 1) (by omega)]
      obtain ⟨rr, hrr, hfn, hlk⟩ := hlink i (by omega)
      refine ⟨rr, hrr, hfn, ?_⟩
      rcases hlk with h0 | ⟨p, hp, hprev⟩
      · exact Or.inl h0
      · refine Or.inr ⟨p, ?_, hprev⟩
        rw [hA_low i (by omega)]
        exact hp
    · subst him
      refine ⟨{ y with m_Active := true }, hA_new, ?_, ?_⟩
      · show y.m_Functional = true
        exact hyf
      · by_cases hm0 : i = 0
        · exact Or.inl hm0
        · right
          rcases htip with h0 | ⟨t, x₀, hat, hx₀, hts⟩
          · exact absurd h0 hm0
          refine ⟨t, ?_, ?_⟩
          · rw [hA_low i (le_refl i)]
            exact hat
          · show y.m_State.m_Prev = hashOf t.m_State
            rw [hys]
            have hgm' : cb.get? (i - 1 + 1) = some r := by
              rw [show i - 1 + 1 = i by omega]
              exact hgm
            have hpr := hlinkcb (i - 1) x₀ r hx₀ hgm'
            rw [hpr, hts]
  · right
    refine ⟨{ y with m_Active := true }, r, hA_new, ?_, ?_⟩
    · rw [Nat.add_sub_cancel]
      exact hgm
    · show y.m_State = r.m_State
      exact hys
  · intro x hx
    obtain ⟨y₀, hy₀, hy₀s, hy₀f⟩ := hcov x hx
    refine ⟨(if hashOf y₀.m_State == hashOf r.m_State
      then { y₀ with m_Active := true } else y₀), ?_, ?_, ?_⟩
    · rw [hdbn]
      unfold setActive
      exact List.mem_map_of_mem _ hy₀
    · rw [(hactF y₀).1]
      exact hy₀s
    · rw [(hactF y₀).2]
      exact hy₀f

/- ---------------------------------------------------------------------
Claim C4, part 10 — the whole forward walk preserves the invariant; a
contextual failure reports a hash above every Active record.
--------------------------------------------------------------------- -/

theorem forwardPass_pres {σ0 : NodeProcessor} {cb : List StateRec}
    (hcb : ∀ j x, cb.get? j = some x →
      x.m_State.m_Height = j + 1 ∧ x ∈ σ0.m_DB ∧ x.m_Functional = true)
    (hlinkcb : ∀ j x y, cb.get? j = some x → cb.get? (j + 1) = some y →
      y.m_State.m_Prev = hashOf x.m_State) :
    ∀ (rs : List StateRec) (σc : NodeProcessor) (m : Nat) (prog : Bool),
      rs = cb.drop m → fwdInv σ0 cb σc m →
      (∀ σ2 p, forwardPass σc rs prog = .done σ2 p → wf σ2) ∧
      (∀ σ2 p, forwardPass σc rs prog = .stuck σ2 p → wf σ2) ∧
      (∀ σ2 hh p, forwardPass σc rs prog = .failed σ2 hh p → wf σ2 ∧
        ∀ z ∈ σ2.m_DB, z.m_Active = true → hashOf z.m_State ≠ hh) := by
  intro rs
  induction rs with
  | nil =>
    intro σc m prog hdrop hinv
    refine ⟨?_, ?_, ?_⟩
    · intro σ2 p h
      unfold forwardPass at h
      injection h with h1 h2
      subst h1
      exact hinv.1
    · intro σ2 p h
      unfold forwardPass at h
      exact PassResult.noConfusion h
    · intro σ2 hh p h
      unfold forwardPass at h
      exact PassResult.noConfusion h
  | cons r rest ih =>
    intro σc m prog hdrop hinv
    have hgm : cb.get? m = some r := by
      have h0 := List.get?_drop cb m 0
      rw [← hdrop] at h0
      rw [Nat.add_zero] at h0
      exact h0.symm
    have hdrop1 : rest = cb.drop (m + 1) := by
      have h1 := List.tail_drop cb m
      rw [← hdrop] at h1
      exact h1
    obtain ⟨hrh, hr0, hrf⟩ := hcb m r hgm
    by_cases hbn : r.m_Body.isNone = true
    · have heq : forwardPass σc (r :: rest) prog = .stuck σc prog := by
        unfold forwardPass
        rw [if_pos hbn]
      refine ⟨?_, ?_, ?_⟩
      · intro σ2 p h
        rw [heq] at h
        exact PassResult.noConfusion h
      · intro σ2 p h
        rw [heq] at h
        injection h with h1 h2
        subst h1
        exact hinv.1
      · intro σ2 hh p h
        rw [heq] at h
        exact PassResult.noConfusion h
    · cases hfw : handleFwd σc r with
      | none =>
        have heq : forwardPass σc (r :: rest) prog =
            .failed σc (hashOf r.m_State) prog := by
          unfold forwardPass
          rw [if_neg hbn]
          simp only [hfw]
        refine ⟨?_, ?_, ?_⟩
        · intro σ2 p h
          rw [heq] at h
          exact PassResult.noConfusion h
        · intro σ2 p h
          rw [heq] at h
          exact PassResult.noConfusion h
        · intro σ2 hh p h
          rw [heq] at h
          injection h with h1 h2 h3
          subst h1
          subst h2
          refine ⟨hinv.1, ?_⟩
          intro z hz hact hzh
          have hle := activeTipHeight_ge _ z hz hact
          rw [hinv.2.1] at hle
          have hzr := hashOf_injective hzh
          rw [hzr] at hle
          omega
      | some σc' =>
        have hdbn : σc'.m_DB = setActive σc.m_DB (hashOf r.m_State) true := by
          unfold handleFwd at hfw
          cases hb2 : r.m_Body with
          | none => rw [hb2] at hbn; simp at hbn
          | some b =>
            simp only [hb2] at hfw
            cases happ : applyFwd ⟨σc.m_Utxos, σc.m_Kernels⟩ b with
            | none =>
              simp only [happ] at hfw
              exact absurd hfw (by simp)
            | some t =>
              simp only [happ] at hfw
              by_cases hroot : (treeRoot t.m_Utxos == r.m_State.m_Utxos &&
                  treeRoot t.m_Kernels == r.m_State.m_Kernels) = true
              · rw [if_pos hroot] at hfw
                injection hfw with hfw
                rw [← hfw]
              · rw [if_neg hroot] at hfw
                exact absurd hfw (by simp)
        have hinv' : fwdInv σ0 cb σc' (m + 1) :=
          activate_inv hcb hlinkcb hinv hgm hdbn
        have heq : forwardPass σc (r :: rest) prog =
            forwardPass σc' rest true := by
          conv_lhs => unfold forwardPass
          rw [if_neg hbn]
          simp only [hfw]
        obtain ⟨ihd, ihs, ihf⟩ := ih σc' (m + 1) true hdrop1 hinv'
        refine ⟨?_, ?_, ?_⟩
        · intro σ2 p h
          rw [heq] at h
          exact ihd σ2 p h
        · intro σ2 p h
          rw [heq] at h
          exact ihs σ2 p h
        · intro σ2 hh p h
          rw [heq] at h
          exact ihf σ2 hh p h

/- ---------------------------------------------------------------------
Claim C4, part 11 — one `TryGoUp` iteration and the whole loop preserve
the invariant.
--------------------------------------------------------------------- -/

theorem tryGoUpIter_pres {σ : NodeProcessor} {best : StateRec}
    (hwf : wf σ) (hbm : best ∈ σ.m_DB) (hre : best.m_Reachable = true) :
    (∀ σ' p, tryGoUpIter σ best = .exit σ' p → wf σ') ∧
    (∀ σ' p, tryGoUpIter σ best = .cont σ' p → wf σ') ∧
    (∀ σ' hh p, tryGoUpIter σ best = .failedR σ' hh p → wf σ' ∧
      ∀ z ∈ σ'.m_DB, z.m_Active = true → hashOf z.m_State ≠ hh) := by
  cases hct : chainTo σ.m_DB best with
  | none =>
    have heq : tryGoUpIter σ best = .exit σ false := by
      unfold tryGoUpIter
      simp only [hct]
    refine ⟨?_, ?_, ?_⟩
    · intro σ' p h
      rw [heq] at h
      injection h with h1 h2
      subst h1
      exact hwf
    · intro σ' p h
      rw [heq] at h
      exact IterResult.noConfusion h
    · intro σ' hh p h
      rw [heq] at h
      exact IterResult.noConfusion h
  | some cb =>
    have hreach : reachD σ.m_DB best = true := by
      rw [← hwf.2.1 best hbm]
      exact hre
    obtain ⟨c', hc', hfunc⟩ := reachD_chain best.m_State.m_Height best hreach
    have hct' : chainToGo σ.m_DB best.m_State.m_Height best = some cb := hct
    have hceq : c' = cb := by
      rw [hct'] at hc'
      injection hc' with h
      exact h.symm
    subst hceq
    obtain ⟨hclen, hclast, hcfacts, hclink⟩ :=
      chainToGo_spec best.m_State.m_Height best c' hct' hbm
    have hcb : ∀ j x, c'.get? j = some x →
        x.m_State.m_Height = j + 1 ∧ x ∈ σ.m_DB ∧ x.m_Functional = true := by
      intro j x hjx
      exact ⟨(hcfacts j x hjx).1, (hcfacts j x hjx).2,
        hfunc x (List.get?_mem hjx)⟩
    by_cases hgd : (((activeChain σ).drop
        (commonPrefixLen (activeChain σ) c')).reverse.any
          (fun r => r.m_Body.isNone)) = true
    · have heq : tryGoUpIter σ best = .exit σ false := by
        unfold tryGoUpIter
        simp only [hct]
        rw [if_pos hgd]
      refine ⟨?_, ?_, ?_⟩
      · intro σ' p h
        rw [heq] at h
        injection h with h1 h2
        subst h1
        exact hwf
      · intro σ' p h
        rw [heq] at h
        exact IterResult.noConfusion h
      · intro σ' hh p h
        rw [heq] at h
        exact IterResult.noConfusion h
    · have hgd' : (((activeChain σ).drop
          (commonPrefixLen (activeChain σ) c')).reverse.any
            (fun r => r.m_Body.isNone)) = false := by
        simpa using hgd
      have hinv1 := rollback_inv hwf c' rfl hgd'
      obtain ⟨ihd, ihs, ihf⟩ := forwardPass_pres hcb hclink
        (c'.drop (commonPrefixLen (activeChain σ) c'))
        ((((activeChain σ).drop
          (commonPrefixLen (activeChain σ) c')).reverse).foldl undoStep σ)
        (commonPrefixLen (activeChain σ) c') false rfl hinv1
      cases hfp : forwardPass
          ((((activeChain σ).drop
            (commonPrefixLen (activeChain σ) c')).reverse).foldl undoStep σ)
          (c'.drop (commonPrefixLen (activeChain σ) c')) false with
      | done σ2 prog =>
        have heq : tryGoUpIter σ best = .cont σ2 prog := by
          unfold tryGoUpIter
          simp only [hct]
          rw [if_neg (by simp [hgd'])]
          simp only [hfp]
        refine ⟨?_, ?_, ?_⟩
        · intro σ' p h
          rw [heq] at h
          exact IterResult.noConfusion h
        · intro σ' p h
          rw [heq] at h
          injection h with h1 h2
          subst h1
          exact ihd σ2 prog hfp
        · intro σ' hh p h
          rw [heq] at h
          exact IterResult.noConfusion h
      | stuck σ2 prog =>
        have heq : tryGoUpIter σ best = .exit σ2 prog := by
          unfold tryGoUpIter
          simp only [hct]
          rw [if_neg (by simp [hgd'])]
          simp only [hfp]
        refine ⟨?_, ?_, ?_⟩
        · intro σ' p h
          rw [heq] at h
          injection h with h1 h2
          subst h1
          exact ihs σ2 prog hfp
        · intro σ' p h
          rw [heq] at h
          exact IterResult.noConfusion h
        · intro σ' hh p h
          rw [heq] at h
          exact IterResult.noConfusion h
      | failed σ2 hh2 prog =>
        have heq : tryGoUpIter σ best = .failedR σ2 hh2 prog := by
          unfold tryGoUpIter
          simp only [hct]
          rw [if_neg (by simp [hgd'])]
          simp only [hfp]
        refine ⟨?_, ?_, ?_⟩
        · intro σ' p h
          rw [heq] at h
          exact IterResult.noConfusion h
        · intro σ' p h
          rw [heq] at h
          exact IterResult.noConfusion h
        · intro σ' hh p h
          rw [heq] at h
          injection h with h1 h2 h3
          subst h1
          subst h2
          exact ihf σ2 hh2 prog hfp

theorem tryGoUpLoop_pres :
    ∀ (fuel : Nat) (σ : NodeProcessor) (prog : Bool), wf σ →
      wf (tryGoUpLoop fuel σ prog).1 := by
  intro fuel
  induction fuel with
  | zero => intro σ prog hwf; exact hwf
  | succ fuel ih =>
    intro σ prog hwf
    cases hbr : bestReachable σ.m_DB with
    | none =>
      have heq : tryGoUpLoop (fuel + 1) σ prog = (σ, prog) := by
        unfold tryGoUpLoop
        simp only [hbr]
      rw [heq]
      exact hwf
    | some best =>
      obtain ⟨hbm, hre⟩ := bestReachable_mem hbr
      by_cases hat : atTip σ best = true
      · have heq : tryGoUpLoop (fuel + 1) σ prog = (σ, prog) := by
          unfold tryGoUpLoop
          simp only [hbr]
          rw [if_pos hat]
        rw [heq]
        exact hwf
      · obtain ⟨hex, hco, hfa⟩ := tryGoUpIter_pres hwf hbm hre
        cases hit : tryGoUpIter σ best with
        | exit σ' p =>
          have heq : tryGoUpLoop (fuel + 1) σ prog = (σ', prog || p) := by
            unfold tryGoUpLoop
            simp only [hbr]
            rw [if_neg hat]
            simp only [hit]
          rw [heq]
          exact hex σ' p hit
        | cont σ' p =>
          have heq : tryGoUpLoop (fuel + 1) σ prog =
              tryGoUpLoop fuel σ' (prog || p) := by
            conv_lhs => unfold tryGoUpLoop
            simp only [hbr]
            rw [if_neg hat]
            simp only [hit]
          rw [heq]
          exact ih σ' (prog || p) (hco σ' p hit)
        | failedR σ' hh p =>
          have heq : tryGoUpLoop (fuel + 1) σ prog =
              tryGoUpLoop fuel (markNonFunctional σ' hh) (prog || p) := by
            conv_lhs => unfold tryGoUpLoop
            simp only [hbr]
            rw [if_neg hat]
            simp only [hit]
          rw [heq]
          obtain ⟨hwf', hna⟩ := hfa σ' hh p hit
          exact ih _ _ (wf_markNonFunctional hwf' hna)

/- ---------------------------------------------------------------------
Claim C4, part 12 — every top-level operation preserves the invariant,
and the claim follows for every reachable processor state.
--------------------------------------------------------------------- -/

theorem wf_TryGoUp {σ : NodeProcessor} (hwf : wf σ) : wf (TryGoUp σ) := by
  have hl := tryGoUpLoop_pres (σ.m_DB.length + 2) σ false hwf
  simp only [TryGoUp]
  by_cases hres : (tryGoUpLoop (σ.m_DB.length + 2) σ false).2 = true
  · rw [if_pos hres]
    cases htp : tipRec (tryGoUpLoop (σ.m_DB.length + 2) σ false).1 with
    | none =>
      simp only [htp]
      exact hl
    | some t =>
      simp only [htp]
      exact wf_PruneOld hl _
  · rw [if_neg hres]
    exact hl

theorem wf_OnState {σ : NodeProcessor} (hwf : wf σ) (s : SystemState)
    (p : Nat) : wf (OnState σ s p).2 := by
  unfold OnState
  by_cases hv : s.IsValid = true
  · by_cases hrel : IsRelevantHeight σ s.m_Height = true
    · by_cases hhas : hasRec σ.m_DB (hashOf s) = true
      · rw [if_neg (by simp [hv]), if_neg (by simp [hrel]), if_pos hhas]
        exact hwf
      · have hhas' : hasRec σ.m_DB (hashOf s) = false := by simpa using hhas
        rw [if_neg (by simp [hv]), if_neg (by simp [hrel]),
          if_neg (by simp [hhas'])]
        exact wf_TryGoUp (wfStore_insert hwf hv hhas')
    · rw [if_neg (by simp [hv]),
        if_pos (by simp [Bool.not_eq_true _ |>.mp hrel])]
      exact hwf
  · rw [if_pos (by simp [Bool.not_eq_true _ |>.mp hv])]
    exact hwf

theorem wf_OnBlock {σ : NodeProcessor} (hwf : wf σ) (id : StateID)
    (b : Body) (p : Nat) : wf (OnBlock σ id b p).2 := by
  unfold OnBlock
  by_cases hrel : IsRelevantHeight σ id.m_Height = true
  · rw [if_neg (by simp [hrel])]
    cases hfind : findRec σ.m_DB id.m_Hash with
    | none =>
      simp only [hfind]
      exact hwf
    | some r =>
      simp only [hfind]
      by_cases hht : r.m_State.m_Height ≠ id.m_Height
      · rw [if_pos hht]
        exact hwf
      · rw [if_neg hht]
        by_cases hbs : r.m_Body.isSome = true
        · rw [if_pos hbs]
          exact hwf
        · rw [if_neg hbs]
          exact wf_TryGoUp (wfStore_setBody hwf _ _)
  · rw [if_pos (by simp [Bool.not_eq_true _ |>.mp hrel])]
    exact hwf

/-- The processor states reachable from a freshly initialized processor by
any sequence of header deliveries, body deliveries, `TryGoUp` runs and
pruning passes. -/
inductive Reach : NodeProcessor → Prop where
  | init (hz : Horizon) : Reach (NodeProcessor.init hz)
  | onState {σ : NodeProcessor} (h : Reach σ) (s : SystemState) (p : Nat) :
      Reach (OnState σ s p).2
  | onBlock {σ : NodeProcessor} (h : Reach σ) (id : StateID) (b : Body)
      (p : Nat) : Reach (OnBlock σ id b p).2
  | tryGoUp {σ : NodeProcessor} (h : Reach σ) : Reach (TryGoUp σ)
  | prune {σ : NodeProcessor} (h : Reach σ) (hTip : Nat) :
      Reach (PruneOld σ hTip)

theorem Reach_wf {σ : NodeProcessor} (h : Reach σ) : wf σ := by
  induction h with
  | init hz => exact wf_init hz
  | onState h s p ih => exact wf_OnState ih s p
  | onBlock h id b p ih => exact wf_OnBlock ih id b p
  | tryGoUp h ih => exact wf_TryGoUp ih
  | prune h hTip ih => exact wf_PruneOld ih hTip

/-- Claim C4 — in every processor state reachable by any sequence of
`OnState`, `OnBlock`, `TryGoUp` and pruning operations: every record
flagged Active is also flagged Reachable; every record flagged Reachable
is Functional; and for each height present on the active chain there is
exactly one Active record at that height. -/
theorem C4_flag_invariants {σ : NodeProcessor} (hσ : Reach σ) :
    (∀ r ∈ σ.m_DB, r.m_Active = true → r.m_Reachable = true) ∧
    (∀ r ∈ σ.m_DB, r.m_Reachable = true → r.m_Functional = true) ∧
    (∀ r ∈ activeChain σ, ∃! x, x ∈ σ.m_DB ∧ x.m_Active = true ∧
      x.m_State.m_Height = r.m_State.m_Height) := by
  have hwf := Reach_wf hσ
  have hwf' := hwf
  obtain ⟨hnd, hflag, huniq, hht, hlink⟩ := hwf'
  refine ⟨?_, ?_, ?_⟩
  · intro r hr hact
    rw [hflag r hr]
    exact wfStore_active_reachD hwf r hr hact
  · intro r hr hre
    rw [hflag r hr] at hre
    exact reachD_functional hre
  · intro r hr
    obtain ⟨i, hi⟩ := List.mem_iff_get?.mp hr
    obtain ⟨hacl, hacg⟩ := activeChain_spec hwf
    have hilt : i < activeTipHeight σ.m_DB := by
      have := get?_some_lt hi
      omega
    rw [hacg i hilt] at hi
    obtain ⟨hm, ha, hh⟩ := activeAt_some hi
    refine ⟨r, ⟨hm, ha, rfl⟩, ?_⟩
    intro x hx
    obtain ⟨hxm, hxa, hxh⟩ := hx
    exact huniq x hxm r hm hxa ha hxh

/- ---------------------------------------------------------------------
Concrete delivery scenarios (used by the counterexamples).
--------------------------------------------------------------------- -/

/-- Genesis header of the concrete scenarios (height 1; its body is empty,
so its tree roots are the empty roots). -/
def cexG : SystemState := ⟨1, 0, 0, 0, 1, 0, 0, 0⟩

/-- Witness for claim C4: the processor obtained by delivering one valid
genesis header to a freshly initialized processor is reachable, and the
three invariant clauses hold of it. -/
theorem C4_flag_invariants_witness :
    (∀ r ∈ (OnState (NodeProcessor.init Horizon.default) cexG 0).2.m_DB,
      r.m_Active = true → r.m_Reachable = true) ∧
    (∀ r ∈ (OnState (NodeProcessor.init Horizon.default) cexG 0).2.m_DB,
      r.m_Reachable = true → r.m_Functional = true) ∧
    (∀ r ∈ activeChain (OnState (NodeProcessor.init Horizon.default) cexG 0).2,
      ∃! x, x ∈ (OnState (NodeProcessor.init Horizon.default) cexG 0).2.m_DB ∧
        x.m_Active = true ∧
        x.m_State.m_Height = r.m_State.m_Height) :=
  C4_flag_invariants (Reach.onState (Reach.init Horizon.default) cexG 0)

/-- Height-2 header of the active branch. -/
def cexA2 : SystemState := ⟨2, hashOf cexG, 0, 0, 2, 0, 0, 0⟩

/-- Height-3 header of the active branch. -/
def cexA3 : SystemState := ⟨3, hashOf cexA2, 0, 0, 3, 0, 0, 0⟩

/-- A competing height-2 header (a side branch with less cumulative
work). -/
def cexB2 : SystemState := ⟨2, hashOf cexG, 1, 0, 1, 0, 0, 0⟩

/-- The empty block body. -/
def bodyEmpty : Body := ⟨[], [], []⟩

/-- The delivery sequence of the pruning scenario: the three-block active
chain with its bodies, and the side-branch header delivered in between. -/
def cexMsgs : List Msg :=
  [.state cexG 0, .block cexG.id bodyEmpty 0,
   .state cexA2 0, .block cexA2.id bodyEmpty 0,
   .state cexB2 0,
   .state cexA3 0, .block cexA3.id bodyEmpty 0]

/-- A processor configured with a branching horizon of 1 and a
Schwarzschild horizon of 2. -/
def cexProcessor : NodeProcessor := NodeProcessor.init ⟨some 1, some 2⟩

/-- Claim C1, counterexample — the two delivery orders of the same
two-message set `[header of genesis, body of genesis]` are permutations of
each other, made of individually valid messages, yet they end with
different active tips: with the header first, the genesis block is applied
and becomes the tip; with the body first, the body is rejected (its state
is unknown) and no tip ever appears. -/
theorem C1_counterexample :
    [Msg.state cexG 0, Msg.block cexG.id bodyEmpty 0].Perm
      [Msg.block cexG.id bodyEmpty 0, Msg.state cexG 0] ∧
    cexG.IsValid = true ∧
    get_CurrentState (run (NodeProcessor.init Horizon.default)
        [Msg.state cexG 0, Msg.block cexG.id bodyEmpty 0]) ≠
      get_CurrentState (run (NodeProcessor.init Horizon.default)
        [Msg.block cexG.id bodyEmpty 0, Msg.state cexG 0]) := by
  refine ⟨List.Perm.swap _ _ _, rfl, ?_⟩
  decide

/-- Claim C3, counterexample — the first `OnState` with the side-branch
header (delivered as the fifth message) returns `true`; after the chain
advances to height 3 and `PruneOld` deletes the side branch, a later
`OnState` with the very same header returns `true` again instead of
`false`. -/
theorem C3_counterexample :
    (OnState (run cexProcessor (cexMsgs.take 4)) cexB2 0).1 = true ∧
    (OnState (run cexProcessor cexMsgs) cexB2 0).1 = true := by
  constructor
  · decide
  · decide

/-- A one-record store whose genesis block (empty body) applies cleanly at
the empty trees: the input of the `C2` witness. -/
def c2σ : NodeProcessor :=
  ⟨[⟨cexG, some bodyEmpty, true, true, false⟩], 0, 0, Horizon.default, 0⟩

/-- The processor after the forward application of the genesis block. -/
def c2σ' : NodeProcessor :=
  ⟨[⟨cexG, some bodyEmpty, true, true, true⟩], 0, 0, Horizon.default, 0⟩

/-- Witness for claim C2: the genesis block applies forward at the fresh
trees, and the backward application restores both roots. -/
theorem C2_handleBlock_roundtrip_witness :
    HandleBlock c2σ cexG.id true = some c2σ' ∧
    (∃ σ'', HandleBlock c2σ' cexG.id false = some σ'' ∧
      treeRoot σ''.m_Utxos = treeRoot c2σ.m_Utxos ∧
      treeRoot σ''.m_Kernels = treeRoot c2σ.m_Kernels) :=
  ⟨by decide, C2_handleBlock_roundtrip c2σ c2σ' cexG.id (by decide)⟩

/-- Witness for claim C5: on a one-record store whose record is
Reachable, `bestReachable` returns it, it is Reachable, and it dominates
every Reachable record. -/
theorem C5_tryGoUp_target_witness :
    bestReachable [(⟨cexG, none, true, true, false⟩ : StateRec)] =
      some ⟨cexG, none, true, true, false⟩ ∧
    ((⟨cexG, none, true, true, false⟩ : StateRec) ∈
        [(⟨cexG, none, true, true, false⟩ : StateRec)] ∧
      (⟨cexG, none, true, true, false⟩ : StateRec).m_Reachable = true ∧
      ∀ r ∈ [(⟨cexG, none, true, true, false⟩ : StateRec)],
        r.m_Reachable = true →
        r.m_State.m_ChainWork <
            (⟨cexG, none, true, true, false⟩ : StateRec).m_State.m_ChainWork ∨
          (r.m_State.m_ChainWork =
              (⟨cexG, none, true, true, false⟩ : StateRec).m_State.m_ChainWork ∧
            hashOf (⟨cexG, none, true, true, false⟩ : StateRec).m_State ≤
              hashOf r.m_State)) :=
  ⟨by decide, C5_tryGoUp_target _ _ (by decide)⟩

/-- Witness for claim C7: the pruning pass of the concrete scenario — the
two-block chain with the configured horizons, pruned at tip height 3 —
satisfies the three pruning conclusions; the store there is
ancestor-closed on its Active records. -/
theorem C7_prune_old_witness :
    (∀ r ∈ (PruneOld (run cexProcessor (cexMsgs.take 4)) 3).m_DB,
      r.m_Active = true → r.m_State.m_Height < 3 - 2 → r.m_Body = none) ∧
    (∀ r ∈ (run cexProcessor (cexMsgs.take 4)).m_DB,
      (∀ r2 ∈ (PruneOld (run cexProcessor (cexMsgs.take 4)) 3).m_DB,
        hashOf r2.m_State ≠ hashOf r.m_State) →
      ∀ d ∈ (PruneOld (run cexProcessor (cexMsgs.take 4)) 3).m_DB,
        isDesc (run cexProcessor (cexMsgs.take 4)).m_DB d r = false) ∧
    PruneOld (PruneOld (run cexProcessor (cexMsgs.take 4)) 3) 3 =
      PruneOld (run cexProcessor (cexMsgs.take 4)) 3 :=
  C7_prune_old (run cexProcessor (cexMsgs.take 4)) 3 1 2 (by decide)
    (by
      have h : ∀ d ∈ (run cexProcessor (cexMsgs.take 4)).m_DB,
          ∀ r ∈ (run cexProcessor (cexMsgs.take 4)).m_DB,
          d.m_Active = true →
          isDesc (run cexProcessor (cexMsgs.take 4)).m_DB d r = true →
          r.m_Active = true := by decide
      intro d r hd hr
      exact h d hd r hr)

end beam
